import Mathlib

/-!
Flow-sensitive alias analysis: the points-to engine.

A shallow embedding of `PointsToAnalysis` (lib/FlowSensitiveAliasAnalysis.cpp):
`handleGlobalVar`, `runAnalysis` and `runOnWorkList`, over an explicit state
holding the global alias graph, the `AliasIn` / `AliasOut` maps and the worklist.

The alias graph, the token store, the CFG utilities and the worklist are
collaborators whose code is not part of the engine's file.  The alias graph
and the worklist are modelled from the design document; what the token store
and the CFG utilities answer for a given module is a field of `Module`.
-/

namespace AliasAnalysis

/-- Canonical alias tokens (`AliasUtil::Alias*`), compared by identity. -/
abbrev Token := Nat
/-- Instructions (`llvm::Instruction*`), compared by identity. -/
abbrev Inst := Nat
/-- Basic blocks (`llvm::BasicBlock*`). -/
abbrev BB := Nat
/-- Functions (`llvm::Function*`). -/
abbrev Func := Nat
/-- Other IR values: global variables, formal and actual arguments. -/
abbrev Value := Nat

/-- An edge of an alias graph: left token, right token and the two
redirection levels. -/
structure Edge where
  left : Token
  right : Token
  lhsLevel : Int
  rhsLevel : Int
deriving DecidableEq, Repr

/-- Modelled from the spec: `AliasGraphUtil::AliasGraph<Alias>` (AliasGraph/AliasGraph.h
is not part of the engine's file).  A finite set of edges; equality is set equality. -/
abbrev AliasMap := Finset Edge

namespace AliasGraph

/-- Modelled from the spec: `insert(A, B, l, r)` of the alias graph, which adds
the edge `(A, B, l, r)` if absent. -/
def insert (g : AliasMap) (a b : Token) (l r : Int) : AliasMap :=
  Insert.insert (Edge.mk a b l r) g

/-- Modelled from the spec: `insert(A, B)` of the alias graph, the convenience
form with the default levels `(1, 1)`. -/
def insertDefault (g : AliasMap) (a b : Token) : AliasMap :=
  insert g a b 1 1

/-- Modelled from the spec: `erase(A)` of the alias graph, which removes every
edge whose left token is `A`. -/
def erase (g : AliasMap) (a : Token) : AliasMap :=
  g.filter (fun e => e.left ≠ a)

/-- Modelled from the spec: `getPointee(A)` of the alias graph, the set of tokens
`B` such that an edge `(A, B, 1, *)` exists. -/
def getPointee (g : AliasMap) (a : Token) : Finset Token :=
  (g.filter (fun e => e.left = a ∧ e.lhsLevel = 1)).image Edge.right

/-- Modelled from the spec: `merge(graphs)` of the alias graph, which unites the
edge sets of the given graphs into this graph. -/
def merge (g : AliasMap) (gs : List AliasMap) : AliasMap :=
  gs.foldl (fun acc h => acc ∪ h) g

end AliasGraph

/-- The instruction kinds the engine tells apart with `dyn_cast`. -/
inductive InstKind where
  | store
  | gep
  | call
  | ret
  | other
deriving DecidableEq, Repr

/-- The module under analysis as the engine sees it: the IR accessors it calls,
and the answers of the token store (`AT`) and of `CFGUtils`. -/
structure Module where
  /-- Every instruction of the module, in program order (seed of the worklist). -/
  insts : List Inst
  /-- Values of `M.getGlobalList()`. -/
  globals : List Value
  /-- Parent block: `Inst->getParent()`. -/
  getParent : Inst → BB
  /-- Parent function: `BB->getParent()`. -/
  bbParent : BB → Func
  /-- First instruction: `BB->front()`. -/
  bbFront : BB → Inst
  /-- Last instruction: `BB->back()`. -/
  bbBack : BB → Inst
  /-- First block: `Func.front()`. -/
  funcFront : Func → BB
  /-- Last block: `Func.back()`. -/
  funcBack : Func → BB
  /-- Formal arguments: `arg_begin() .. arg_end()`, also `getArg(n)`. -/
  funcArgs : Func → List Value
  /-- Which `dyn_cast` succeeds on the instruction. -/
  kind : Inst → InstKind
  /-- Indirect call test: `CI->isIndirectCall()`. -/
  isIndirectCall : Inst → Bool
  /-- Call target: `CI->getCalledFunction()`. -/
  getCalledFunction : Inst → Func
  /-- Diverging call test: `CI->doesNotReturn()`. -/
  doesNotReturn : Inst → Bool
  /-- Actual arguments: `CI->args()`. -/
  callArgs : Inst → List Value
  /-- The global variable a global is initialised with, when
  `dyn_cast<GlobalVariable>(G.getInitializer())` succeeds. -/
  globalInit : Value → Option Value
  /-- Predecessors: `CFGUtils::GetPred`. -/
  GetPred : Inst → List Inst
  /-- Successors: `CFGUtils::GetSucc`. -/
  GetSucc : Inst → List Inst
  /-- Analyzability: `CFGUtils::SkipFunction`. -/
  SkipFunction : Func → Bool
  /-- Tokens of an instruction: `AT.extractAliasToken(Inst)`. -/
  extractAliasToken : Inst → List Token
  /-- Redirection levels of an instruction: `AT.extractStatementType(Inst)`. -/
  extractStatementType : Inst → Int × Int
  /-- Tokens of a global: `AT.extractAliasToken(&G)`. -/
  extractAliasTokenGlobal : Value → List Token
  /-- Redirection levels of a global: `AT.extractStatementType(&G)`. -/
  extractStatementTypeGlobal : Value → Int × Int
  /-- Tokens of a formal argument: `AT.extractAliasToken(Arg, ParentFunc)`. -/
  extractAliasTokenArg : Value → Func → List Token
  /-- Canonical token of a value: `AT.getAliasToken` on the value or on a fresh
  `Alias` of it. -/
  getAliasToken : Value → Token
  /-- Field token: `AT.getAliasToken(FieldVal)` after `FieldVal->setIndex(GEP)`
  on a copy of the token. -/
  setIndex : Token → Inst → Token
  /-- Heap classification: `Alias::isMem()`. -/
  isMem : Token → Bool
  /-- Scope test: `Alias::sameFunc(&Func)`. -/
  sameFunc : Token → Func → Bool

/-- A `std::map<Instruction*, AliasMap>`: absent keys are `none`. -/
abbrev GraphMap := Inst → Option AliasMap

/-- Read access `Map[I]` to the graph held for `I`: the empty graph when the
key is absent. -/
def lookup (mp : GraphMap) (i : Inst) : AliasMap :=
  (mp i).getD ∅

/-- Write access `Map[I] = g`. -/
def assign (mp : GraphMap) (i : Inst) (g : AliasMap) : GraphMap :=
  fun j => if j = i then some g else mp j

/-- The effect of `Map[I]` on the map itself: `operator[]` creates an empty
graph for an absent key. -/
def touch (mp : GraphMap) (i : Inst) : GraphMap :=
  assign mp i (lookup mp i)

/-- The state of a `PointsToAnalysis` object.  The token store is a pure
function of the module (fields of `Module`) and the benchmark runner has no
effect on the graphs. -/
structure State where
  GlobalAliasMap : AliasMap
  AliasIn : GraphMap
  AliasOut : GraphMap
  /-- Modelled from the spec: `WorklistUtil::Worklist` (Worklist/Worklist.h is not
  part of the engine's file), a first-in first-out queue of instructions;
  `pop` takes the head, `push` appends, duplicates are kept. -/
  WL : List Inst

/-- Lines 27-44: `handleGlobalVar` folds the globals into the global alias graph. -/
def handleGlobalVarStep (m : Module) (g : AliasMap) (G : Value) : AliasMap :=
  match m.extractAliasTokenGlobal G with
  | [a0, a1] =>
    let Redirections := m.extractStatementTypeGlobal G
    let g1 := AliasGraph.insert g a0 a1 Redirections.1 Redirections.2
    match m.globalInit G with
    | some Constant => AliasGraph.insert g1 a0 (m.getAliasToken Constant) 2 1
    | none => g1
  | _ => g

/-- Lines 27-44: `handleGlobalVar(M)`, started from the given global alias graph. -/
def handleGlobalVar (m : Module) (g : AliasMap) : AliasMap :=
  m.globals.foldl (handleGlobalVarStep m) g

/-- Line 26: the constructor seeds the worklist with the module's instructions
and runs `handleGlobalVar` on the empty global graph. -/
def init (m : Module) : State :=
  { GlobalAliasMap := handleGlobalVar m ∅
    AliasIn := fun _ => none
    AliasOut := fun _ => none
    WL := m.insts }

/-- Lines 63-69: the argument alias graph of the parent function. -/
def ArgAliasMap (m : Module) (ParentFunc : Func) : AliasMap :=
  (m.funcArgs ParentFunc).foldl
    (fun g Arg =>
      match m.extractAliasTokenArg Arg ParentFunc with
      | [a0, a1] => AliasGraph.insert g a0 a1 1 0
      | _ => g)
    ∅

/-- Lines 61-81: the list `Predecessors` of graphs merged into `AliasIn[Inst]`. -/
def Predecessors (m : Module) (s : State) (i : Inst) : List AliasMap :=
  (if m.bbFront (m.getParent i) = i then
      [s.GlobalAliasMap, ArgAliasMap m (m.bbParent (m.getParent i))]
    else [])
  ++ (m.GetPred i).filterMap s.AliasOut

/-- Lines 82-83: merge the predecessors into `AliasIn[Inst]` and copy the result
to `AliasOut[Inst]`. -/
def seedStep (m : Module) (s : State) (i : Inst) : State :=
  let inG := AliasGraph.merge (lookup s.AliasIn i) (Predecessors m s i)
  { s with AliasIn := assign s.AliasIn i inG, AliasOut := assign s.AliasOut i inG }

/-- Lines 87-95: the strong kill of a store.  `KillNode` is `*(Pointee.begin())`,
the least element of the ordered set of pointees. -/
def killStep (m : Module) (s : State) (i : Inst) (Aliases : List Token) : State :=
  if m.kind i = InstKind.store then
    match Aliases with
    | [a0, _] =>
      let Pointee := AliasGraph.getPointee (lookup s.AliasOut i) a0
      if h : Pointee.card = 1 then
        let KillNode := Pointee.min' (Finset.card_pos.mp (h ▸ Nat.one_pos))
        { s with AliasOut := assign s.AliasOut i (AliasGraph.erase (lookup s.AliasOut i) KillNode) }
      else s
    | _ => s
  else s

/-- Lines 98-107: the field access of a GEP.  `Aliases[1]` and `Aliases[0]` are
read, which has no defined result on fewer than two tokens.  The tokens are
cleared afterwards. -/
def gepStep (m : Module) (s : State) (i : Inst) (Aliases : List Token) :
    Option (State × List Token) :=
  if m.kind i = InstKind.gep then
    match Aliases with
    | dst :: base :: _ =>
      let Pointee := AliasGraph.getPointee (lookup s.AliasOut i) base
      let fields := Pointee.image (fun A => Edge.mk dst (m.setIndex A i) 1 0)
      some ({ s with AliasOut := assign s.AliasOut i (lookup s.AliasOut i ∪ fields) }, [])
    | _ => none
  else some (s, Aliases)

/-- Lines 128-137: the binding of the actual arguments to the callee's formals
in the entry graph; `Func.getArg(ArgNum)` beyond the formals has no defined result. -/
def bindArgs (m : Module) (callee : Func) : AliasMap → List Value → Nat → Option AliasMap
  | g, [], _ => some g
  | g, Arg :: rest, ArgNum =>
    match (m.funcArgs callee)[ArgNum]? with
    | none => none
    | some formal =>
      bindArgs m callee
        (AliasGraph.insert g (m.getAliasToken formal) (m.getAliasToken Arg) 1 1) rest (ArgNum + 1)

/-- The callee's first instruction, `Func.front().front()`, for the call `i`. -/
def calleeEntry (m : Module) (i : Inst) : Inst :=
  m.bbFront (m.funcFront (m.getCalledFunction i))

/-- The callee's last instruction, `Func.back().back()`, for the call `i`. -/
def calleeExit (m : Module) (i : Inst) : Inst :=
  m.bbBack (m.funcBack (m.getCalledFunction i))

/-- Lines 114-115: the caller's `AliasIn[Inst]` is merged into the `AliasIn` graph of the
callee's first instruction. -/
def contextStep (m : Module) (s : State) (i : Inst) : State :=
  let entryIn := AliasGraph.merge (lookup s.AliasIn (calleeEntry m i)) [lookup s.AliasIn i]
  { s with AliasIn := assign s.AliasIn (calleeEntry m i) entryIn }

/-- Lines 116-126: the return-value binding, inserted into the `AliasOut` graph of
the callee's last instruction; `Aliases[0]` out of range has no defined result. -/
def returnStep (m : Module) (s : State) (i : Inst) (Aliases : List Token) : Option State :=
  if m.doesNotReturn i = false then
    if m.kind (calleeExit m i) = InstKind.ret then
      match m.extractAliasToken (calleeExit m i) with
      | [r0] =>
        match Aliases[0]? with
        | none => none
        | some c0 =>
          let exitOut := AliasGraph.insert (lookup s.AliasOut (calleeExit m i)) c0 r0 1 1
          some { s with AliasOut := assign s.AliasOut (calleeExit m i) exitOut }
      | _ => some s
    else some s
  else some s

/-- Lines 128-137: the argument binding on the `AliasIn` graph of the callee's first
instruction. -/
def argumentStep (m : Module) (s : State) (i : Inst) : Option State :=
  (bindArgs m (m.getCalledFunction i) (lookup s.AliasIn (calleeEntry m i)) (m.callArgs i) 0).bind
    fun entryIn => some { s with AliasIn := assign s.AliasIn (calleeEntry m i) entryIn }

/-- Lines 139-143: the edges of the callee's exit graph whose left token is not
scoped to the callee, as `insert(P.first, P.second)` adds them: with the default
levels of `AliasGraph.insertDefault`. -/
def leakedEdges (m : Module) (callee : Func) (exitOut : AliasMap) : AliasMap :=
  (exitOut.filter (fun P => m.sameFunc P.left callee = false)).image
    (fun P => Edge.mk P.left P.right 1 1)

/-- Lines 139-143: the changes the callee made to non-local tokens are inserted into
`AliasOut[Inst]`; reading `AliasOut` at the callee's last instruction creates its entry. -/
def leakStep (m : Module) (s : State) (i : Inst) : State :=
  let out := touch s.AliasOut (calleeExit m i)
  let leaked := leakedEdges m (m.getCalledFunction i) (lookup out (calleeExit m i))
  { s with AliasOut := assign out i (lookup out i ∪ leaked) }

/-- The instruction is a direct call to an analyzable function: the three tests
of lines 109-112 succeed. -/
def analyzableCall (m : Module) (i : Inst) : Bool :=
  decide (m.kind i = InstKind.call) && !m.isIndirectCall i
    && !m.SkipFunction (m.getCalledFunction i)

/-- Lines 109-146: the handling of a direct call to an analyzable function. -/
def callStep (m : Module) (s : State) (i : Inst) (Aliases : List Token) : Option State :=
  if m.kind i = InstKind.call then
    if m.isIndirectCall i = false then
      if m.SkipFunction (m.getCalledFunction i) = false then
        (returnStep m (contextStep m s i) i Aliases).bind fun s2 =>
        (argumentStep m s2 i).bind fun s3 =>
        some (leakStep m s3 i)
      else some s
    else some s
  else some s

/-- Lines 149-156: the generic assignment. -/
def assignStep (m : Module) (s : State) (i : Inst) (Aliases : List Token) : State :=
  let Redirections := m.extractStatementType i
  match Aliases with
  | [a0, a1] =>
    let second := if m.isMem a1 then 0 else Redirections.2
    let out := AliasGraph.insert (lookup s.AliasOut i) a0 a1 Redirections.1 second
    { s with AliasOut := assign s.AliasOut i out }
  | _ => s

/-- Lines 58-164: `runAnalysis(Inst)`.  The result is `none` when the run reads a
vector or an argument list out of range. -/
def runAnalysis (m : Module) (s : State) (i : Inst) : Option State :=
  let s1 := seedStep m s i
  let Aliases := m.extractAliasToken i
  let s2 := killStep m s1 i Aliases
  (gepStep m s2 i Aliases).bind fun p =>
  (callStep m p.1 i p.2).bind fun s4 =>
  some (assignStep m s4 i p.2)

/-- Lines 47-55: one iteration of the loop of `runOnWorkList` on a worklist whose
head is `Inst`. -/
def iteration (m : Module) (s : State) (i : Inst) (rest : List Inst) : Option State :=
  let s0 := { s with WL := rest, AliasOut := touch s.AliasOut i }
  let OldAliasInfo := lookup s0.AliasOut i
  (runAnalysis m s0 i).bind fun s1 =>
  let NewAliasInfo := lookup s1.AliasOut i
  if OldAliasInfo = NewAliasInfo then some s1
  else some { s1 with WL := s1.WL ++ m.GetSucc i }

/-- How a bounded run of the driver loop ends. -/
inductive Run where
  /-- The worklist is empty: the loop has ended in this state. -/
  | finished (s : State)
  /-- An iteration had no defined result. -/
  | undefined
  /-- The worklist is not empty after the allowed number of iterations. -/
  | outOfFuel

/-- Lines 45-57: `runOnWorkList`, bounded to `fuel` iterations of the loop. -/
def runOnWorkList (m : Module) : Nat → State → Run
  | 0, s =>
    match s.WL with
    | [] => Run.finished s
    | _ :: _ => Run.outOfFuel
  | fuel + 1, s =>
    match s.WL with
    | [] => Run.finished s
    | i :: rest =>
      match iteration m s i rest with
      | none => Run.undefined
      | some s1 => runOnWorkList m fuel s1

/-! ## Graph-level descriptions of the steps -/

/-- The merged `AliasIn[Inst]` of line 82. -/
def mergedIn (m : Module) (s : State) (i : Inst) : AliasMap :=
  AliasGraph.merge (lookup s.AliasIn i) (Predecessors m s i)

/-- The edges the return-value binding of the call `i` inserts into the callee's
exit graph (lines 117-125): none, or the one edge `(Aliases[0], CallAliases[0], 1, 1)`. -/
def returnEdges (m : Module) (i : Inst) (Aliases : List Token) : AliasMap :=
  if m.doesNotReturn i = false then
    if m.kind (calleeExit m i) = InstKind.ret then
      match m.extractAliasToken (calleeExit m i) with
      | [r0] =>
        match Aliases[0]? with
        | none => ∅
        | some c0 => {Edge.mk c0 r0 1 1}
      | _ => ∅
    else ∅
  else ∅

/-- The edge the generic assignment inserts for the given tokens (lines 149-156):
none unless there are exactly two tokens. -/
def assignEdges (m : Module) (i : Inst) (Aliases : List Token) : AliasMap :=
  match Aliases with
  | [a0, a1] =>
    {Edge.mk a0 a1 (m.extractStatementType i).1
      (if m.isMem a1 then 0 else (m.extractStatementType i).2)}
  | _ => ∅

/-- The graph the strong kill of lines 87-95 leaves of `g`. -/
def killGraph (m : Module) (i : Inst) (g : AliasMap) : AliasMap :=
  if m.kind i = InstKind.store then
    match m.extractAliasToken i with
    | [a0, _] =>
      if h : (AliasGraph.getPointee g a0).card = 1 then
        AliasGraph.erase g ((AliasGraph.getPointee g a0).min' (Finset.card_pos.mp (h ▸ Nat.one_pos)))
      else g
    | _ => g
  else g

/-- The field edges the GEP step of lines 98-104 adds to `g`. -/
def gepEdges (m : Module) (i : Inst) (g : AliasMap) : AliasMap :=
  if m.kind i = InstKind.gep then
    match m.extractAliasToken i with
    | dst :: base :: _ =>
      (AliasGraph.getPointee g base).image (fun A => Edge.mk dst (m.setIndex A i) 1 0)
    | _ => ∅
  else ∅

/-- The tokens the generic assignment sees: cleared by the GEP step (line 106). -/
def tokensAfterGep (m : Module) (i : Inst) : List Token :=
  if m.kind i = InstKind.gep then [] else m.extractAliasToken i

/-- The `AliasOut[Inst]` that `runAnalysis` computes from the merged `AliasIn[Inst]`
for an instruction that is not a direct call to an analyzable function. -/
def localOut (m : Module) (i : Inst) (g : AliasMap) : AliasMap :=
  killGraph m i g ∪ gepEdges m i (killGraph m i g) ∪ assignEdges m i (tokensAfterGep m i)

/-- The reads of `runAnalysis(Inst)` that can go out of range stay in range: a GEP has
the two tokens it indexes, and a direct call to an analyzable function has a first
token when the return value is bound and no more actual arguments than the callee
has formals. -/
def readsInRange (m : Module) (i : Inst) : Bool :=
  (if m.kind i = InstKind.gep then decide (2 ≤ (m.extractAliasToken i).length) else true) &&
  (if analyzableCall m i then
    (if m.doesNotReturn i = false ∧ m.kind (calleeExit m i) = InstKind.ret ∧
        (m.extractAliasToken (calleeExit m i)).length = 1
      then decide (m.extractAliasToken i ≠ []) else true) &&
    decide ((m.callArgs i).length ≤ (m.funcArgs (m.getCalledFunction i)).length)
  else true)

/-- The `AliasIn` and `AliasOut` maps of the two states hold the same at the key `j`. -/
def agreeAt (j : Inst) (s s1 : State) : Prop :=
  s1.AliasIn j = s.AliasIn j ∧ s1.AliasOut j = s.AliasOut j

/-- The graph `AliasOut[Inst]` as it stands when line 149 is reached: after the seed,
the kill and the GEP step for an instruction that is not a direct call to an analyzable
function, and after the leakage step for one that is. -/
def outBeforeAssign (m : Module) (s : State) (i : Inst) : AliasMap :=
  if analyzableCall m i then
    (if i = calleeExit m i then mergedIn m s i ∪ returnEdges m i (m.extractAliasToken i)
      else mergedIn m s i) ∪
    leakedEdges m (m.getCalledFunction i)
      ((if calleeExit m i = i then mergedIn m s i else lookup s.AliasOut (calleeExit m i))
        ∪ returnEdges m i (m.extractAliasToken i))
  else
    killGraph m i (mergedIn m s i) ∪ gepEdges m i (killGraph m i (mergedIn m s i))

/-! ## Example modules -/

/-- A module with no instruction, no global and no function argument, in which
every extraction yields no token; the examples below override its fields. -/
def emptyModule : Module :=
  { insts := [], globals := [], getParent := fun _ => 0, bbParent := fun _ => 0,
    bbFront := fun _ => 0, bbBack := fun _ => 0, funcFront := fun _ => 0, funcBack := fun _ => 0,
    funcArgs := fun _ => [], kind := fun _ => InstKind.other, isIndirectCall := fun _ => false,
    getCalledFunction := fun _ => 0, doesNotReturn := fun _ => false, callArgs := fun _ => [],
    globalInit := fun _ => none, GetPred := fun _ => [], GetSucc := fun _ => [],
    SkipFunction := fun _ => false, extractAliasToken := fun _ => [],
    extractStatementType := fun _ => (1, 1), extractAliasTokenGlobal := fun _ => [],
    extractStatementTypeGlobal := fun _ => (1, 1), extractAliasTokenArg := fun _ _ => [],
    getAliasToken := fun v => v, setIndex := fun t _ => t, isMem := fun _ => false,
    sameFunc := fun _ _ => false }

/-- The state in which no graph has been created yet and the worklist is empty. -/
def emptyState : State :=
  { GlobalAliasMap := ∅, AliasIn := fun _ => none, AliasOut := fun _ => none, WL := [] }

/-- F = { 1: c = call G(p) ; 2: ret } and G(x) = { 0: ret r }: instruction 1 calls the
analyzable function 0 with one actual argument; the callee has one formal. -/
def mCall : Module :=
  { emptyModule with
    insts := [0, 1, 2]
    getParent := fun i => if i = 0 then 0 else 1
    bbParent := fun b => b
    bbFront := fun b => if b = 0 then 0 else 1
    bbBack := fun b => if b = 0 then 0 else 2
    funcFront := fun f => f
    funcBack := fun f => f
    funcArgs := fun f => if f = 0 then [30] else []
    kind := fun i => if i = 1 then InstKind.call else InstKind.ret
    getCalledFunction := fun _ => 0
    callArgs := fun i => if i = 1 then [31] else []
    GetPred := fun i => if i = 2 then [1] else []
    GetSucc := fun i => if i = 1 then [2] else []
    extractAliasToken := fun i => if i = 0 then [10] else if i = 1 then [11] else []
    sameFunc := fun t f => (t = 10 && f = 0) || (t = 30 && f = 0) || (t = 11 && f = 1)
      || (t = 31 && f = 1) }

/-- A state of `mCall` in which the caller already sees `31 -> 40` and the callee's exit
graph holds a fact on the global token `50` and one on the callee's local token `10`. -/
def sCall : State :=
  { emptyState with
    AliasIn := fun i => if i = 1 then some {Edge.mk 31 40 1 0} else none
    AliasOut := fun i => if i = 0 then some {Edge.mk 50 10 1 0, Edge.mk 10 40 1 1} else none }

def mCopy : Module :=
  { emptyModule with
    insts := [0]
    extractAliasToken := fun _ => [1, 2] }

def mStore : Module :=
  { emptyModule with
    insts := [0]
    kind := fun _ => InstKind.store
    extractAliasToken := fun _ => [1, 2]
    extractStatementType := fun _ => (2, 1) }

def sStore : State :=
  { emptyState with
    AliasIn := fun _ => some {Edge.mk 1 3 1 0, Edge.mk 3 4 1 0, Edge.mk 5 6 1 1} }

def mGep : Module :=
  { emptyModule with
    insts := [0]
    kind := fun _ => InstKind.gep
    extractAliasToken := fun _ => [1, 2]
    setIndex := fun t _ => t + 100 }

def sGep : State :=
  { emptyState with
    AliasIn := fun _ => some {Edge.mk 2 3 1 0, Edge.mk 2 4 1 1, Edge.mk 5 6 1 1} }

/-- One global `0` whose extraction yields the tokens `20, 21` and whose initializer is
the global variable `1`, with token `22`. -/
def mGlobal : Module :=
  { emptyModule with
    globals := [0]
    extractAliasTokenGlobal := fun _ => [20, 21]
    globalInit := fun G => if G = 0 then some 1 else none
    getAliasToken := fun v => v + 21 }

/-- One function with one formal argument and two basic blocks, `[0]` and `[1]`;
instruction `1` starts the second block and has instruction `0` as its predecessor.
The module has the global of `mGlobal`. -/
def mSeed : Module :=
  { mGlobal with
    insts := [0, 1]
    getParent := fun i => i
    bbFront := fun b => b
    bbBack := fun b => b
    funcBack := fun _ => 1
    funcArgs := fun _ => [5]
    extractAliasTokenArg := fun _ _ => [30, 31]
    GetPred := fun i => if i = 1 then [0] else []
    GetSucc := fun i => if i = 0 then [1] else [] }

/-- A state of `mGep` whose `AliasIn` graph of instruction `0` extends that of `sGep`. -/
def tGep : State :=
  { emptyState with
    AliasIn := fun _ => some {Edge.mk 2 3 1 0, Edge.mk 2 4 1 1, Edge.mk 5 6 1 1, Edge.mk 2 7 1 0} }

/-- The module `mCall` with a variadic callee: the call `1` passes the two actual
arguments `31, 32` to function `0`, which has the one formal `30`. -/
def mVarArg : Module :=
  { mCall with callArgs := fun i => if i = 1 then [31, 32] else [] }

/-- The module `mGep` with a GEP whose extraction yields the single token `1`. -/
def mShortGep : Module :=
  { mGep with extractAliasToken := fun _ => [1] }

/-- The module `mCall` with a call whose extraction yields no token, while the callee's
return instruction `0` still yields the token `10`. -/
def mNoResult : Module :=
  { mCall with extractAliasToken := fun i => if i = 0 then [10] else [] }

/-- The module `mCall` with a call and a callee return that both yield no token:
`F = { 1: call G(p) ; 2: ret }` and `G(x) = { 0: ret }`. -/
def mVoidCall : Module :=
  { mCall with extractAliasToken := fun _ => [] }

/-- A self-recursive function with the formal `30` whose first instruction is the
recursive call: `f(x) = { 0: 11 = call f(31) ; 1: ret 10 }`. -/
def mSelf : Module :=
  { emptyModule with
    insts := [0, 1]
    bbBack := fun _ => 1
    funcArgs := fun _ => [30]
    kind := fun i => if i = 0 then InstKind.call else InstKind.ret
    callArgs := fun i => if i = 0 then [31] else []
    GetPred := fun i => if i = 1 then [0] else []
    GetSucc := fun i => if i = 0 then [1] else []
    extractAliasToken := fun i => if i = 0 then [11] else [10]
    sameFunc := fun _ _ => true }

/-- A state in which token `2` points to `3`, for the modules `mCopy` and `mHeap`. -/
def sCopy : State :=
  { emptyState with AliasIn := fun _ => some {Edge.mk 2 3 1 0} }

/-- The module `mCopy` with a heap-classified right-hand token and statement type
`(1, 1)`: `1 = malloc` with the heap token `2`. -/
def mHeap : Module :=
  { mCopy with isMem := fun t => decide (t = 2) }

/-- A call to a library function that the CFG utilities skip, yielding the tokens
`1, 2`: `{ 0: 1 = call ext() }`. -/
def mSkipped : Module :=
  { emptyModule with
    insts := [0]
    kind := fun _ => InstKind.call
    SkipFunction := fun _ => true
    extractAliasToken := fun _ => [1, 2] }

/-! ## Lemmas on the graph operations and the maps -/

theorem lookup_assign_same (mp : GraphMap) (i : Inst) (g : AliasMap) :
    lookup (assign mp i g) i = g := by
  simp [lookup, assign]

theorem lookup_assign_ne (mp : GraphMap) {i j : Inst} (g : AliasMap) (h : j ≠ i) :
    lookup (assign mp i g) j = lookup mp j := by
  simp [lookup, assign, h]

theorem lookup_touch (mp : GraphMap) (i j : Inst) : lookup (touch mp i) j = lookup mp j := by
  unfold touch
  by_cases h : j = i
  · subst h; rw [lookup_assign_same]
  · rw [lookup_assign_ne _ _ h]

theorem AliasGraph.mem_insert (g : AliasMap) (a b : Token) (l r : Int) (e : Edge) :
    e ∈ AliasGraph.insert g a b l r ↔ e = Edge.mk a b l r ∨ e ∈ g := by
  simp [AliasGraph.insert]

theorem AliasGraph.mem_erase (g : AliasMap) (a : Token) (e : Edge) :
    e ∈ AliasGraph.erase g a ↔ e ∈ g ∧ e.left ≠ a := by
  simp [AliasGraph.erase]

theorem AliasGraph.mem_merge (g : AliasMap) (gs : List AliasMap) (e : Edge) :
    e ∈ AliasGraph.merge g gs ↔ e ∈ g ∨ ∃ h ∈ gs, e ∈ h := by
  unfold AliasGraph.merge
  induction gs generalizing g with
  | nil => simp
  | cons h t ih =>
    rw [List.foldl_cons, ih]
    simp only [Finset.mem_union, List.mem_cons, exists_eq_or_imp]
    tauto

/-! ## Lemmas on `runAnalysis` -/

theorem seedStep_in (m : Module) (s : State) (i : Inst) :
    lookup (seedStep m s i).AliasIn i
      = AliasGraph.merge (lookup s.AliasIn i) (Predecessors m s i) := by
  simp [seedStep, lookup_assign_same]

theorem seedStep_out (m : Module) (s : State) (i : Inst) :
    lookup (seedStep m s i).AliasOut i
      = AliasGraph.merge (lookup s.AliasIn i) (Predecessors m s i) := by
  simp [seedStep, lookup_assign_same]

theorem seedStep_spec (m : Module) (s : State) (i : Inst) :
    (seedStep m s i).WL = s.WL ∧ (seedStep m s i).GlobalAliasMap = s.GlobalAliasMap ∧
    (∀ j, lookup (seedStep m s i).AliasIn j
      = if j = i then mergedIn m s i else lookup s.AliasIn j) ∧
    (∀ j, lookup (seedStep m s i).AliasOut j
      = if j = i then mergedIn m s i else lookup s.AliasOut j) := by
  refine ⟨rfl, rfl, fun j => ?_, fun j => ?_⟩ <;>
  · by_cases hj : j = i
    · subst hj; simp [seedStep, mergedIn, lookup_assign_same]
    · simp [seedStep, lookup_assign_ne _ _ hj, hj]

theorem assignStep_spec (m : Module) (s : State) (i : Inst) (A : List Token) :
    (assignStep m s i A).AliasIn = s.AliasIn ∧ (assignStep m s i A).WL = s.WL ∧
    (assignStep m s i A).GlobalAliasMap = s.GlobalAliasMap ∧
    (∀ j, lookup (assignStep m s i A).AliasOut j
      = if j = i then lookup s.AliasOut j ∪ assignEdges m i A else lookup s.AliasOut j) := by
  unfold assignStep assignEdges
  rcases A with _ | ⟨a0, _ | ⟨a1, _ | ⟨a2, t⟩⟩⟩
  · exact ⟨rfl, rfl, rfl, fun j => by simp⟩
  · exact ⟨rfl, rfl, rfl, fun j => by simp⟩
  · refine ⟨rfl, rfl, rfl, fun j => ?_⟩
    by_cases hj : j = i
    · subst hj
      simp only [lookup_assign_same, if_true]
      ext e
      simp [AliasGraph.mem_insert, or_comm]
    · simp only [lookup_assign_ne _ _ hj, hj, if_false]
  · exact ⟨rfl, rfl, rfl, fun j => by simp⟩

theorem returnStep_spec (m : Module) (s s2 : State) (i : Inst) (A : List Token)
    (h : returnStep m s i A = some s2) :
    s2.AliasIn = s.AliasIn ∧ s2.WL = s.WL ∧ s2.GlobalAliasMap = s.GlobalAliasMap ∧
    (∀ j, lookup s2.AliasOut j
      = if j = calleeExit m i then lookup s.AliasOut j ∪ returnEdges m i A
        else lookup s.AliasOut j) := by
  unfold returnStep at h
  unfold returnEdges
  generalize m.extractAliasToken (calleeExit m i) = L at h ⊢
  by_cases h1 : m.doesNotReturn i = false
  · by_cases h2 : m.kind (calleeExit m i) = InstKind.ret
    · simp only [h1, h2, if_true] at h ⊢
      rcases L with _ | ⟨r0, _ | ⟨r1, t⟩⟩
      · cases h; exact ⟨rfl, rfl, rfl, fun j => by simp⟩
      · cases hA : A[0]? with
        | none => simp [hA] at h
        | some c0 =>
          simp only [hA, Option.some.injEq] at h
          subst h
          refine ⟨rfl, rfl, rfl, fun j => ?_⟩
          by_cases hj : j = calleeExit m i
          · subst hj
            simp only [lookup_assign_same, if_true]
            ext e
            simp [AliasGraph.mem_insert, or_comm]
          · simp only [lookup_assign_ne _ _ hj, hj, if_false]
      · cases h; exact ⟨rfl, rfl, rfl, fun j => by simp⟩
    · simp only [h1, h2, if_true, if_false] at h ⊢
      cases h; exact ⟨rfl, rfl, rfl, fun j => by simp⟩
  · simp only [h1, if_false] at h ⊢
    cases h; exact ⟨rfl, rfl, rfl, fun j => by simp⟩

theorem bindArgs_spec (m : Module) (callee : Func) (args : List Value) :
    ∀ (g g1 : AliasMap) (n : Nat), bindArgs m callee g args n = some g1 →
      g ⊆ g1 ∧
      (∀ k actual, args[k]? = some actual →
        ∃ formal, (m.funcArgs callee)[n + k]? = some formal ∧
          Edge.mk (m.getAliasToken formal) (m.getAliasToken actual) 1 1 ∈ g1) ∧
      (∀ e ∈ g1, e ∈ g ∨ ∃ k actual formal, args[k]? = some actual ∧
          (m.funcArgs callee)[n + k]? = some formal ∧
          e = Edge.mk (m.getAliasToken formal) (m.getAliasToken actual) 1 1) := by
  induction args with
  | nil =>
    intro g g1 n h
    simp only [bindArgs, Option.some.injEq] at h
    subst h
    exact ⟨Finset.Subset.refl _, by simp, fun e he => Or.inl he⟩
  | cons a rest ih =>
    intro g g1 n h
    unfold bindArgs at h
    cases hf : (m.funcArgs callee)[n]? with
    | none => simp [hf] at h
    | some formal =>
      simp only [hf] at h
      obtain ⟨hsub, hall, honly⟩ := ih _ _ _ h
      have hg : g ⊆ AliasGraph.insert g (m.getAliasToken formal) (m.getAliasToken a) 1 1 := by
        intro e he
        exact (AliasGraph.mem_insert _ _ _ _ _ _).mpr (Or.inr he)
      refine ⟨hg.trans hsub, ?_, ?_⟩
      · intro k actual hk
        cases k with
        | zero =>
          simp only [List.getElem?_cons_zero, Option.some.injEq] at hk
          subst hk
          exact ⟨formal, by simpa using hf,
            hsub ((AliasGraph.mem_insert _ _ _ _ _ _).mpr (Or.inl rfl))⟩
        | succ k =>
          simp only [List.getElem?_cons_succ] at hk
          obtain ⟨f, hf1, hf2⟩ := hall k actual hk
          refine ⟨f, ?_, hf2⟩
          rw [← hf1]; congr 1; omega
      · intro e he
        rcases honly e he with h1 | ⟨k, actual, f, hk, hf1, rfl⟩
        · rcases (AliasGraph.mem_insert _ _ _ _ _ _).mp h1 with h2 | h2
          · exact Or.inr ⟨0, a, formal, by simp, by simpa using hf, h2⟩
          · exact Or.inl h2
        · refine Or.inr ⟨k + 1, actual, f, by simpa using hk, ?_, rfl⟩
          rw [← hf1]; congr 1; omega

theorem analyzableCall_iff (m : Module) (i : Inst) :
    analyzableCall m i = true ↔
      m.kind i = InstKind.call ∧ m.isIndirectCall i = false ∧
        m.SkipFunction (m.getCalledFunction i) = false := by
  simp [analyzableCall, and_assoc]

theorem callStep_skip (m : Module) (s : State) (i : Inst) (A : List Token)
    (h : analyzableCall m i = false) : callStep m s i A = some s := by
  unfold callStep
  by_cases h1 : m.kind i = InstKind.call
  · by_cases h2 : m.isIndirectCall i = false
    · by_cases h3 : m.SkipFunction (m.getCalledFunction i) = false
      · have : analyzableCall m i = true := (analyzableCall_iff m i).mpr ⟨h1, h2, h3⟩
        rw [h] at this; exact absurd this (by simp)
      · simp [h1, h2, h3]
    · simp [h1, h2]
  · simp [h1]

theorem callStep_spec (m : Module) (s s1 : State) (i : Inst) (A : List Token)
    (hac : analyzableCall m i = true) (h : callStep m s i A = some s1) :
    s1.WL = s.WL ∧ s1.GlobalAliasMap = s.GlobalAliasMap ∧
    (∃ entryIn,
      bindArgs m (m.getCalledFunction i) (lookup s.AliasIn (calleeEntry m i) ∪ lookup s.AliasIn i)
        (m.callArgs i) 0 = some entryIn ∧
      ∀ j, lookup s1.AliasIn j = if j = calleeEntry m i then entryIn else lookup s.AliasIn j) ∧
    (∀ j, lookup s1.AliasOut j
      = if j = i then
          (if i = calleeExit m i then lookup s.AliasOut i ∪ returnEdges m i A
            else lookup s.AliasOut i) ∪
          leakedEdges m (m.getCalledFunction i)
            (lookup s.AliasOut (calleeExit m i) ∪ returnEdges m i A)
        else if j = calleeExit m i then lookup s.AliasOut j ∪ returnEdges m i A
        else lookup s.AliasOut j) := by
  obtain ⟨h1, h2, h3⟩ := (analyzableCall_iff m i).mp hac
  unfold callStep at h
  simp only [h1, h2, h3, if_true] at h
  cases hr : returnStep m (contextStep m s i) i A with
  | none => simp [hr] at h
  | some s2 =>
    simp only [hr, Option.some_bind] at h
    obtain ⟨hin, hwl, hgl, hout⟩ := returnStep_spec m _ s2 i A hr
    unfold argumentStep at h
    cases hb : bindArgs m (m.getCalledFunction i) (lookup s2.AliasIn (calleeEntry m i))
        (m.callArgs i) 0 with
    | none => simp [hb] at h
    | some entryIn =>
      simp only [hb, Option.some_bind, Option.some.injEq] at h
      subst h
      refine ⟨hwl, hgl, ⟨entryIn, ?_, ?_⟩, ?_⟩
      · rw [hin] at hb
        simpa [contextStep, lookup_assign_same, AliasGraph.merge] using hb
      · intro j
        by_cases hj : j = calleeEntry m i
        · subst hj
          simp only [if_true]
          exact lookup_assign_same _ _ _
        · simp only [hj, if_false]
          show lookup (assign s2.AliasIn (calleeEntry m i) entryIn) j = _
          rw [lookup_assign_ne _ _ hj, hin]
          exact lookup_assign_ne _ _ hj
      · intro j
        have hc : (contextStep m s i).AliasOut = s.AliasOut := rfl
        rw [hc] at hout
        by_cases hj : j = i
        · subst hj
          simp only [leakStep, if_true, lookup_assign_same, lookup_touch, hout]
        · simp only [leakStep, hj, if_false, lookup_assign_ne _ _ hj, lookup_touch, hout]

theorem lookup_ite_self (mp : GraphMap) (i j : Inst) :
    lookup mp j = if j = i then lookup mp i else lookup mp j := by
  split
  · rename_i h; rw [h]
  · rfl

theorem killStep_cases (m : Module) (s : State) (i : Inst) :
    (killStep m s i (m.extractAliasToken i) = s ∧
      killGraph m i (lookup s.AliasOut i) = lookup s.AliasOut i) ∨
    killStep m s i (m.extractAliasToken i)
      = { s with AliasOut := assign s.AliasOut i (killGraph m i (lookup s.AliasOut i)) } := by
  unfold killStep killGraph
  by_cases hk : m.kind i = InstKind.store
  · simp only [hk, if_true]
    rcases m.extractAliasToken i with _ | ⟨a0, _ | ⟨a1, _ | ⟨a2, t⟩⟩⟩
    · exact Or.inl ⟨rfl, rfl⟩
    · exact Or.inl ⟨rfl, rfl⟩
    · by_cases hc : (AliasGraph.getPointee (lookup s.AliasOut i) a0).card = 1
      · right
        show dite _ _ _ = { s with AliasOut := assign s.AliasOut i (dite _ _ _) }
        rw [dif_pos hc, dif_pos hc]
      · left
        show dite _ _ _ = s ∧ dite _ _ _ = _
        rw [dif_neg hc, dif_neg hc]
        exact ⟨rfl, rfl⟩
    · exact Or.inl ⟨rfl, rfl⟩
  · rw [if_neg hk, if_neg hk]
    exact Or.inl ⟨rfl, rfl⟩

theorem killStep_spec (m : Module) (s : State) (i : Inst) :
    (killStep m s i (m.extractAliasToken i)).WL = s.WL ∧
    (killStep m s i (m.extractAliasToken i)).GlobalAliasMap = s.GlobalAliasMap ∧
    (killStep m s i (m.extractAliasToken i)).AliasIn = s.AliasIn ∧
    (∀ j, lookup (killStep m s i (m.extractAliasToken i)).AliasOut j
      = if j = i then killGraph m i (lookup s.AliasOut i) else lookup s.AliasOut j) := by
  rcases killStep_cases m s i with ⟨h1, h2⟩ | h
  · rw [h1, h2]
    exact ⟨rfl, rfl, rfl, fun j => lookup_ite_self _ _ _⟩
  · rw [h]
    refine ⟨rfl, rfl, rfl, fun j => ?_⟩
    by_cases hj : j = i
    · subst hj; simp only [lookup_assign_same, if_true]
    · simp only [lookup_assign_ne _ _ hj, hj, if_false]

theorem gepStep_spec (m : Module) (s : State) (i : Inst) (p : State × List Token)
    (h : gepStep m s i (m.extractAliasToken i) = some p) :
    p.2 = tokensAfterGep m i ∧ p.1.WL = s.WL ∧ p.1.GlobalAliasMap = s.GlobalAliasMap ∧
    p.1.AliasIn = s.AliasIn ∧
    (∀ j, lookup p.1.AliasOut j
      = if j = i then lookup s.AliasOut i ∪ gepEdges m i (lookup s.AliasOut i)
        else lookup s.AliasOut j) := by
  unfold gepStep at h
  unfold gepEdges tokensAfterGep
  by_cases hk : m.kind i = InstKind.gep
  · simp only [hk, if_true] at h ⊢
    generalize m.extractAliasToken i = L at h ⊢
    rcases L with _ | ⟨a0, _ | ⟨a1, t⟩⟩
    · simp at h
    · simp at h
    · simp only [Option.some.injEq] at h
      subst h
      refine ⟨rfl, rfl, rfl, rfl, fun j => ?_⟩
      by_cases hj : j = i
      · subst hj; simp only [lookup_assign_same, if_true]
      · simp only [lookup_assign_ne _ _ hj, hj, if_false]
  · simp only [hk, if_false, Option.some.injEq] at h ⊢
    subst h
    refine ⟨rfl, rfl, rfl, rfl, fun j => ?_⟩
    rw [Finset.union_empty]
    exact lookup_ite_self _ _ _

theorem runAnalysis_local_spec (m : Module) (s s1 : State) (i : Inst)
    (hna : analyzableCall m i = false) (h : runAnalysis m s i = some s1) :
    s1.WL = s.WL ∧ s1.GlobalAliasMap = s.GlobalAliasMap ∧
    (∀ j, lookup s1.AliasIn j = if j = i then mergedIn m s i else lookup s.AliasIn j) ∧
    (∀ j, lookup s1.AliasOut j
      = if j = i then localOut m i (mergedIn m s i) else lookup s.AliasOut j) := by
  unfold runAnalysis at h
  simp only at h
  cases hg : gepStep m (killStep m (seedStep m s i) i (m.extractAliasToken i)) i
      (m.extractAliasToken i) with
  | none => simp [hg] at h
  | some p =>
    simp only [hg, Option.some_bind, callStep_skip m _ i _ hna, Option.some.injEq] at h
    subst h
    obtain ⟨hs1, hs2, hs3, hs4⟩ := seedStep_spec m s i
    obtain ⟨hk1, hk2, hk3, hk4⟩ := killStep_spec m (seedStep m s i) i
    obtain ⟨hg0, hg1, hg2, hg3, hg4⟩ := gepStep_spec m _ i p hg
    obtain ⟨ha1, ha2, ha3, ha4⟩ := assignStep_spec m p.1 i p.2
    refine ⟨by rw [ha2, hg1, hk1, hs1], by rw [ha3, hg2, hk2, hs2], fun j => ?_, fun j => ?_⟩
    · rw [ha1, hg3, hk3, hs3]
    · rw [ha4, hg4, hk4, hk4, hs4, hs4, hg0]
      by_cases hj : j = i
      · subst hj; simp only [if_true, localOut]
      · simp only [hj, if_false]

theorem runAnalysis_call_spec (m : Module) (s s1 : State) (i : Inst)
    (hac : analyzableCall m i = true) (h : runAnalysis m s i = some s1) :
    s1.WL = s.WL ∧ s1.GlobalAliasMap = s.GlobalAliasMap ∧
    (∃ entryIn,
      bindArgs m (m.getCalledFunction i)
        ((if calleeEntry m i = i then mergedIn m s i else lookup s.AliasIn (calleeEntry m i))
          ∪ mergedIn m s i) (m.callArgs i) 0 = some entryIn ∧
      ∀ j, lookup s1.AliasIn j
        = if j = calleeEntry m i then entryIn
          else if j = i then mergedIn m s i else lookup s.AliasIn j) ∧
    (∀ j, lookup s1.AliasOut j
      = if j = i then
          (if i = calleeExit m i then mergedIn m s i ∪ returnEdges m i (m.extractAliasToken i)
            else mergedIn m s i) ∪
          leakedEdges m (m.getCalledFunction i)
            ((if calleeExit m i = i then mergedIn m s i else lookup s.AliasOut (calleeExit m i))
              ∪ returnEdges m i (m.extractAliasToken i)) ∪
          assignEdges m i (m.extractAliasToken i)
        else if j = calleeExit m i then
          lookup s.AliasOut j ∪ returnEdges m i (m.extractAliasToken i)
        else lookup s.AliasOut j) := by
  have hk : m.kind i = InstKind.call := ((analyzableCall_iff m i).mp hac).1
  unfold runAnalysis at h
  have hkill : killStep m (seedStep m s i) i (m.extractAliasToken i) = seedStep m s i := by
    simp [killStep, hk]
  have hgep : gepStep m (seedStep m s i) i (m.extractAliasToken i)
      = some (seedStep m s i, m.extractAliasToken i) := by
    simp [gepStep, hk]
  simp only [hkill, hgep, Option.some_bind] at h
  cases hc : callStep m (seedStep m s i) i (m.extractAliasToken i) with
  | none => simp [hc] at h
  | some s4 =>
    simp only [hc, Option.some_bind, Option.some.injEq] at h
    subst h
    obtain ⟨hs1, hs2, hs3, hs4⟩ := seedStep_spec m s i
    obtain ⟨hc1, hc2, ⟨entryIn, hb, hc3⟩, hc4⟩ := callStep_spec m _ s4 i _ hac hc
    obtain ⟨ha1, ha2, ha3, ha4⟩ := assignStep_spec m s4 i (m.extractAliasToken i)
    refine ⟨by rw [ha2, hc1, hs1], by rw [ha3, hc2, hs2], ⟨entryIn, ?_, fun j => ?_⟩, fun j => ?_⟩
    · rw [hs3, hs3] at hb
      simpa using hb
    · rw [ha1, hc3, hs3]
    · rw [ha4, hc4, hs4, hs4, hs4]
      by_cases hj : j = i
      · subst hj
        simp only [if_true]
      · simp only [hj, if_false]

theorem runAnalysis_plain (m : Module) (s : State) (i : Inst)
    (hs : m.kind i ≠ InstKind.store) (hg : m.kind i ≠ InstKind.gep)
    (hc : m.kind i ≠ InstKind.call) :
    runAnalysis m s i = some (assignStep m (seedStep m s i) i (m.extractAliasToken i)) := by
  simp [runAnalysis, killStep, gepStep, callStep, hs, hg, hc]

theorem runAnalysis_store (m : Module) (s : State) (i : Inst)
    (hs : m.kind i = InstKind.store) :
    runAnalysis m s i
      = some (assignStep m (killStep m (seedStep m s i) i (m.extractAliasToken i)) i
          (m.extractAliasToken i)) := by
  simp [runAnalysis, gepStep, callStep, hs]

theorem gepStep_isSome (m : Module) (s : State) (i : Inst) :
    (∃ p, gepStep m s i (m.extractAliasToken i) = some p) ↔
      (m.kind i = InstKind.gep → 2 ≤ (m.extractAliasToken i).length) := by
  unfold gepStep
  by_cases hk : m.kind i = InstKind.gep
  · simp only [hk, if_true, forall_true_left]
    rcases m.extractAliasToken i with _ | ⟨a0, _ | ⟨a1, t⟩⟩ <;> simp
  · simp [hk]

theorem returnStep_isSome (m : Module) (s : State) (i : Inst) (A : List Token) :
    (∃ s2, returnStep m s i A = some s2) ↔
      (m.doesNotReturn i = false ∧ m.kind (calleeExit m i) = InstKind.ret ∧
        (m.extractAliasToken (calleeExit m i)).length = 1 → A ≠ []) := by
  unfold returnStep
  by_cases h1 : m.doesNotReturn i = false
  · by_cases h2 : m.kind (calleeExit m i) = InstKind.ret
    · simp only [h1, h2, if_true, true_and]
      rcases m.extractAliasToken (calleeExit m i) with _ | ⟨r0, _ | ⟨r1, t⟩⟩
      · simp
      · rcases A with _ | ⟨c0, t⟩ <;> simp
      · simp
    · simp [h1, h2]
  · simp [h1]

theorem bindArgs_isSome (m : Module) (callee : Func) (args : List Value) :
    ∀ (g : AliasMap) (n : Nat),
      (∃ g1, bindArgs m callee g args n = some g1) ↔
        (args = [] ∨ n + args.length ≤ (m.funcArgs callee).length) := by
  induction args with
  | nil => intro g n; simp [bindArgs]
  | cons a rest ih =>
    intro g n
    unfold bindArgs
    cases hf : (m.funcArgs callee)[n]? with
    | none =>
      have := List.getElem?_eq_none_iff.mp hf
      simp only [List.length_cons, false_or, reduceCtorEq]
      constructor
      · rintro ⟨g1, h⟩; exact absurd h (by simp)
      · intro h; omega
    | some formal =>
      have hlt : n < (m.funcArgs callee).length := by
        by_contra hge
        have := List.getElem?_eq_none_iff.mpr (Nat.le_of_not_lt hge)
        rw [this] at hf; exact absurd hf (by simp)
      simp only [ih, List.length_cons, false_or, reduceCtorEq]
      constructor
      · rintro (h | h)
        · subst h; simp; omega
        · omega
      · intro h; right; omega

theorem runAnalysis_isSome (m : Module) (s : State) (i : Inst) :
    (∃ s1, runAnalysis m s i = some s1) ↔ readsInRange m i = true := by
  unfold runAnalysis readsInRange
  simp only [Bool.and_eq_true]
  constructor
  · rintro ⟨s1, h⟩
    cases hg : gepStep m (killStep m (seedStep m s i) i (m.extractAliasToken i)) i
        (m.extractAliasToken i) with
    | none => simp [hg] at h
    | some p =>
      have hg1 := (gepStep_isSome m _ i).mp ⟨p, hg⟩
      have hp2 := (gepStep_spec m _ i p hg).1
      simp only [hg, Option.some_bind] at h
      refine ⟨by by_cases hk : m.kind i = InstKind.gep <;> simp [hk]; exact hg1 hk, ?_⟩
      cases hac : analyzableCall m i with
      | false => simp
      | true =>
        simp only [if_true, Bool.and_eq_true]
        obtain ⟨hk, hd, hskip⟩ := (analyzableCall_iff m i).mp hac
        have hngep : m.kind i ≠ InstKind.gep := by rw [hk]; decide
        have hp2' : p.2 = m.extractAliasToken i := by rw [hp2]; simp [tokensAfterGep, hngep]
        cases hc : callStep m p.1 i p.2 with
        | none => simp [hc] at h
        | some s4 =>
          unfold callStep at hc
          simp only [hk, hd, hskip, if_true] at hc
          cases hr : returnStep m (contextStep m p.1 i) i p.2 with
          | none => simp [hr] at hc
          | some s2 =>
            have hr1 := (returnStep_isSome m _ i p.2).mp ⟨s2, hr⟩
            simp only [hr, Option.some_bind] at hc
            unfold argumentStep at hc
            cases hb : bindArgs m (m.getCalledFunction i) (lookup s2.AliasIn (calleeEntry m i))
                (m.callArgs i) 0 with
            | none => simp [hb] at hc
            | some g1 =>
              have hb1 := (bindArgs_isSome m _ _ _ _).mp ⟨g1, hb⟩
              rw [hp2'] at hr1
              refine ⟨?_, ?_⟩
              · split
                · rename_i hcond; simpa using hr1 hcond
                · rfl
              · rcases hb1 with hb1 | hb1
                · simp [hb1]
                · simpa using hb1
  · rintro ⟨h1, h2⟩
    have hg1 : m.kind i = InstKind.gep → 2 ≤ (m.extractAliasToken i).length := by
      intro hk; simpa [hk] using h1
    obtain ⟨p, hg⟩ := (gepStep_isSome m (killStep m (seedStep m s i) i (m.extractAliasToken i)) i).mpr hg1
    have hp2 := (gepStep_spec m _ i p hg).1
    simp only [hg, Option.some_bind]
    cases hac : analyzableCall m i with
    | false => simp [callStep_skip m _ i _ hac]
    | true =>
      obtain ⟨hk, hd, hskip⟩ := (analyzableCall_iff m i).mp hac
      have hngep : m.kind i ≠ InstKind.gep := by rw [hk]; decide
      have hp2' : p.2 = m.extractAliasToken i := by rw [hp2]; simp [tokensAfterGep, hngep]
      simp only [hac, if_true, Bool.and_eq_true, decide_eq_true_eq] at h2
      obtain ⟨h21, h22⟩ := h2
      have hr1 : m.doesNotReturn i = false ∧ m.kind (calleeExit m i) = InstKind.ret ∧
          (m.extractAliasToken (calleeExit m i)).length = 1 → p.2 ≠ [] := by
        intro hcond
        rw [hp2']
        simpa [hcond] using h21
      obtain ⟨s2, hr⟩ := (returnStep_isSome m (contextStep m p.1 i) i p.2).mpr hr1
      obtain ⟨g1, hb⟩ := (bindArgs_isSome m (m.getCalledFunction i) (m.callArgs i)
        (lookup s2.AliasIn (calleeEntry m i)) 0).mpr (Or.inr (by omega))
      unfold callStep
      simp [hk, hd, hskip, hr, argumentStep, hb]

theorem leakedEdges_mono (m : Module) (callee : Func) {g h : AliasMap} (hgh : g ⊆ h) :
    leakedEdges m callee g ⊆ leakedEdges m callee h := by
  unfold leakedEdges
  exact Finset.image_subset_image (Finset.filter_subset_filter _ hgh)

theorem mem_leakedEdges (m : Module) (callee : Func) (g : AliasMap) (e : Edge) :
    e ∈ leakedEdges m callee g ↔
      ∃ P ∈ g, m.sameFunc P.left callee = false ∧ e = Edge.mk P.left P.right 1 1 := by
  unfold leakedEdges
  simp only [Finset.mem_image, Finset.mem_filter]
  constructor
  · rintro ⟨P, ⟨hP, hs⟩, rfl⟩; exact ⟨P, hP, hs, rfl⟩
  · rintro ⟨P, hP, hs, rfl⟩; exact ⟨P, ⟨hP, hs⟩, rfl⟩

theorem getPointee_mono {g h : AliasMap} (hgh : g ⊆ h) (a : Token) :
    AliasGraph.getPointee g a ⊆ AliasGraph.getPointee h a := by
  unfold AliasGraph.getPointee
  exact Finset.image_subset_image (Finset.filter_subset_filter _ hgh)

theorem gepEdges_mono (m : Module) (i : Inst) {g h : AliasMap} (hgh : g ⊆ h) :
    gepEdges m i g ⊆ gepEdges m i h := by
  unfold gepEdges
  split
  · split
    · exact Finset.image_subset_image (getPointee_mono hgh _)
    · exact Finset.Subset.refl _
  · exact Finset.Subset.refl _

theorem killGraph_not_store (m : Module) (i : Inst) (g : AliasMap)
    (hs : m.kind i ≠ InstKind.store) : killGraph m i g = g := by
  simp [killGraph, hs]

theorem runAnalysis_gep (m : Module) (s : State) (i : Inst) (dst base : Token) (rest : List Token)
    (hg : m.kind i = InstKind.gep) (ht : m.extractAliasToken i = dst :: base :: rest) :
    runAnalysis m s i
      = some { seedStep m s i with
          AliasOut := assign (seedStep m s i).AliasOut i
            (lookup (seedStep m s i).AliasOut i ∪
              (AliasGraph.getPointee (lookup (seedStep m s i).AliasOut i) base).image
                (fun A => Edge.mk dst (m.setIndex A i) 1 0)) } := by
  simp [runAnalysis, killStep, gepStep, callStep, assignStep, hg, ht]

theorem foldl_handleGlobalVarStep_mono (m : Module) (l : List Value) :
    ∀ g : AliasMap, g ⊆ l.foldl (handleGlobalVarStep m) g := by
  induction l with
  | nil => intro g; exact Finset.Subset.refl _
  | cons G t ih =>
    intro g
    refine Finset.Subset.trans ?_ (ih _)
    intro e he
    unfold handleGlobalVarStep
    split
    · split
      · exact (AliasGraph.mem_insert _ _ _ _ _ _).mpr
          (Or.inr ((AliasGraph.mem_insert _ _ _ _ _ _).mpr (Or.inr he)))
      · exact (AliasGraph.mem_insert _ _ _ _ _ _).mpr (Or.inr he)
    · exact he

theorem handleGlobalVarStep_mem (m : Module) (g : AliasMap) (G : Value) (e : Edge) :
    e ∈ handleGlobalVarStep m g G ↔
      e ∈ g ∨ ∃ a0 a1, m.extractAliasTokenGlobal G = [a0, a1] ∧
        (e = Edge.mk a0 a1 (m.extractStatementTypeGlobal G).1 (m.extractStatementTypeGlobal G).2 ∨
          ∃ H, m.globalInit G = some H ∧ e = Edge.mk a0 (m.getAliasToken H) 2 1) := by
  unfold handleGlobalVarStep
  rcases hL : m.extractAliasTokenGlobal G with _ | ⟨a0, _ | ⟨a1, _ | ⟨a2, t⟩⟩⟩
  · simp
  · simp
  · cases hI : m.globalInit G with
    | none =>
      simp only [AliasGraph.mem_insert]
      constructor
      · rintro (h | h)
        · exact Or.inr ⟨a0, a1, rfl, Or.inl h⟩
        · exact Or.inl h
      · rintro (h | ⟨b0, b1, hb, h | ⟨H, hH, -⟩⟩)
        · exact Or.inr h
        · simp only [List.cons.injEq, and_true] at hb
          obtain ⟨rfl, rfl⟩ := hb
          exact Or.inl h
        · exact absurd hH (by simp)
    | some H =>
      simp only [AliasGraph.mem_insert]
      constructor
      · rintro (h | h | h)
        · exact Or.inr ⟨a0, a1, rfl, Or.inr ⟨H, rfl, h⟩⟩
        · exact Or.inr ⟨a0, a1, rfl, Or.inl h⟩
        · exact Or.inl h
      · rintro (h | ⟨b0, b1, hb, h | ⟨H1, hH, h⟩⟩)
        · exact Or.inr (Or.inr h)
        · simp only [List.cons.injEq, and_true] at hb
          obtain ⟨rfl, rfl⟩ := hb
          exact Or.inr (Or.inl h)
        · simp only [List.cons.injEq, and_true] at hb
          obtain ⟨rfl, rfl⟩ := hb
          simp only [Option.some.injEq] at hH
          subst hH
          exact Or.inl h
  · simp

theorem handleGlobalVar_mem (m : Module) (l : List Value) :
    ∀ (g : AliasMap) (e : Edge), e ∈ l.foldl (handleGlobalVarStep m) g ↔
      e ∈ g ∨ ∃ G ∈ l, ∃ a0 a1, m.extractAliasTokenGlobal G = [a0, a1] ∧
        (e = Edge.mk a0 a1 (m.extractStatementTypeGlobal G).1 (m.extractStatementTypeGlobal G).2 ∨
          ∃ H, m.globalInit G = some H ∧ e = Edge.mk a0 (m.getAliasToken H) 2 1) := by
  induction l with
  | nil => intro g e; simp
  | cons G t ih =>
    intro g e
    rw [List.foldl_cons, ih, handleGlobalVarStep_mem]
    simp only [List.mem_cons, exists_eq_or_imp]
    exact or_assoc

theorem subset_mergedIn (m : Module) (s : State) (i : Inst) :
    lookup s.AliasIn i ⊆ mergedIn m s i := by
  intro e he
  exact (AliasGraph.mem_merge _ _ _).mpr (Or.inl he)

theorem agreeAt_trans {j : Inst} {s s1 s2 : State} (h1 : agreeAt j s s1) (h2 : agreeAt j s1 s2) :
    agreeAt j s s2 :=
  ⟨h2.1.trans h1.1, h2.2.trans h1.2⟩

theorem assign_ne (mp : GraphMap) {i j : Inst} (g : AliasMap) (h : j ≠ i) :
    assign mp i g j = mp j := by
  simp [assign, h]

theorem touch_ne (mp : GraphMap) {i j : Inst} (h : j ≠ i) : touch mp i j = mp j := by
  simp [touch, assign, h]

theorem seedStep_agree (m : Module) (s : State) (i j : Inst) (h : j ≠ i) :
    agreeAt j s (seedStep m s i) :=
  ⟨assign_ne _ _ h, assign_ne _ _ h⟩

theorem killStep_agree (m : Module) (s : State) (i j : Inst) (h : j ≠ i) :
    agreeAt j s (killStep m s i (m.extractAliasToken i)) := by
  rcases killStep_cases m s i with ⟨h1, -⟩ | h1
  · rw [h1]; exact ⟨rfl, rfl⟩
  · rw [h1]; exact ⟨rfl, assign_ne _ _ h⟩

theorem gepStep_agree (m : Module) (s : State) (i j : Inst) (A : List Token)
    (p : State × List Token) (h : j ≠ i) (hg : gepStep m s i A = some p) :
    agreeAt j s p.1 := by
  unfold gepStep at hg
  split at hg
  · split at hg
    · simp only [Option.some.injEq] at hg
      subst hg
      exact ⟨rfl, assign_ne _ _ h⟩
    · exact absurd hg (by simp)
  · simp only [Option.some.injEq] at hg
    subst hg
    exact ⟨rfl, rfl⟩

theorem returnStep_agree (m : Module) (s s2 : State) (i j : Inst) (A : List Token)
    (h : j ≠ calleeExit m i) (hr : returnStep m s i A = some s2) : agreeAt j s s2 := by
  unfold returnStep at hr
  split at hr
  · split at hr
    · split at hr
      · split at hr
        · exact absurd hr (by simp)
        · simp only [Option.some.injEq] at hr
          subst hr
          exact ⟨rfl, assign_ne _ _ h⟩
      · simp only [Option.some.injEq] at hr
        subst hr; exact ⟨rfl, rfl⟩
    · simp only [Option.some.injEq] at hr
      subst hr; exact ⟨rfl, rfl⟩
  · simp only [Option.some.injEq] at hr
    subst hr; exact ⟨rfl, rfl⟩

theorem callStep_agree (m : Module) (s s1 : State) (i j : Inst) (A : List Token)
    (h1 : j ≠ i) (h2 : j ≠ calleeEntry m i) (h3 : j ≠ calleeExit m i)
    (hc : callStep m s i A = some s1) : agreeAt j s s1 := by
  cases hac : analyzableCall m i with
  | false =>
    rw [callStep_skip m s i A hac] at hc
    simp only [Option.some.injEq] at hc
    subst hc; exact ⟨rfl, rfl⟩
  | true =>
    obtain ⟨hk, hd, hskip⟩ := (analyzableCall_iff m i).mp hac
    unfold callStep at hc
    simp only [hk, hd, hskip, if_true] at hc
    cases hr : returnStep m (contextStep m s i) i A with
    | none => simp [hr] at hc
    | some s2 =>
      simp only [hr, Option.some_bind] at hc
      have a1 : agreeAt j s (contextStep m s i) := ⟨assign_ne _ _ h2, rfl⟩
      have a2 := returnStep_agree m _ s2 i j A h3 hr
      unfold argumentStep at hc
      cases hb : bindArgs m (m.getCalledFunction i) (lookup s2.AliasIn (calleeEntry m i))
          (m.callArgs i) 0 with
      | none => simp [hb] at hc
      | some g =>
        simp only [hb, Option.some_bind, Option.some.injEq] at hc
        subst hc
        refine agreeAt_trans (agreeAt_trans a1 a2) ⟨?_, ?_⟩
        · exact assign_ne _ _ h2
        · show assign (touch s2.AliasOut (calleeExit m i)) i _ j = s2.AliasOut j
          rw [assign_ne _ _ h1, touch_ne _ h3]

theorem assignStep_agree (m : Module) (s : State) (i j : Inst) (A : List Token) (h : j ≠ i) :
    agreeAt j s (assignStep m s i A) := by
  unfold assignStep
  split
  · exact ⟨rfl, assign_ne _ _ h⟩
  · exact ⟨rfl, rfl⟩

theorem runAnalysis_agree (m : Module) (s s1 : State) (i j : Inst)
    (h1 : j ≠ i) (h2 : j ≠ calleeEntry m i) (h3 : j ≠ calleeExit m i)
    (h : runAnalysis m s i = some s1) : agreeAt j s s1 := by
  unfold runAnalysis at h
  cases hg : gepStep m (killStep m (seedStep m s i) i (m.extractAliasToken i)) i
      (m.extractAliasToken i) with
  | none => simp [hg] at h
  | some p =>
    simp only [hg, Option.some_bind] at h
    cases hc : callStep m p.1 i p.2 with
    | none => simp [hc] at h
    | some s4 =>
      simp only [hc, Option.some_bind, Option.some.injEq] at h
      subst h
      exact agreeAt_trans (agreeAt_trans (agreeAt_trans (agreeAt_trans
        (seedStep_agree m s i j h1) (killStep_agree m _ i j h1))
        (gepStep_agree m _ i j _ p h1 hg)) (callStep_agree m _ s4 i j _ h1 h2 h3 hc))
        (assignStep_agree m s4 i j _ h1)

theorem iteration_agree (m : Module) (s s1 : State) (i j : Inst) (rest : List Inst)
    (h1 : j ≠ i) (h2 : j ≠ calleeEntry m i) (h3 : j ≠ calleeExit m i)
    (h : iteration m s i rest = some s1) :
    agreeAt j s s1 ∧ s1.GlobalAliasMap = s.GlobalAliasMap ∧
      (s1.WL = rest ∨ s1.WL = rest ++ m.GetSucc i) := by
  unfold iteration at h
  cases hr : runAnalysis m { s with WL := rest, AliasOut := touch s.AliasOut i } i with
  | none => simp [hr] at h
  | some s2 =>
    simp only [hr, Option.some_bind] at h
    have a := runAnalysis_agree m _ s2 i j h1 h2 h3 hr
    have a0 : agreeAt j s { s with WL := rest, AliasOut := touch s.AliasOut i } :=
      ⟨rfl, touch_ne _ h1⟩
    have hwl : s2.WL = rest ∧ s2.GlobalAliasMap = s.GlobalAliasMap := by
      cases hac : analyzableCall m i with
      | false =>
        obtain ⟨w, g, -, -⟩ := runAnalysis_local_spec m _ s2 i hac hr
        exact ⟨w, g⟩
      | true =>
        obtain ⟨w, g, -, -⟩ := runAnalysis_call_spec m _ s2 i hac hr
        exact ⟨w, g⟩
    split at h
    · simp only [Option.some.injEq] at h
      subst h
      exact ⟨agreeAt_trans a0 a, hwl.2, Or.inl hwl.1⟩
    · simp only [Option.some.injEq] at h
      subst h
      exact ⟨agreeAt_trans a0 a, hwl.2, Or.inr (by rw [hwl.1])⟩

theorem runAnalysis_local_agree (m : Module) (s s1 : State) (i j : Inst)
    (hna : analyzableCall m i = false) (hj : j ≠ i)
    (h : runAnalysis m s i = some s1) : agreeAt j s s1 := by
  unfold runAnalysis at h
  cases hg : gepStep m (killStep m (seedStep m s i) i (m.extractAliasToken i)) i
      (m.extractAliasToken i) with
  | none => simp [hg] at h
  | some p =>
    simp only [hg, Option.some_bind, callStep_skip m _ i _ hna, Option.some.injEq] at h
    subst h
    exact agreeAt_trans (agreeAt_trans (agreeAt_trans
      (seedStep_agree m s i j hj) (killStep_agree m _ i j hj))
      (gepStep_agree m _ i j _ p hj hg)) (assignStep_agree m p.1 i j _ hj)

theorem runAnalysis_none (m : Module) (s : State) (i : Inst)
    (h : readsInRange m i = false) : runAnalysis m s i = none := by
  cases hr : runAnalysis m s i with
  | none => rfl
  | some s1 =>
    have := (runAnalysis_isSome m s i).mp ⟨s1, hr⟩
    rw [h] at this
    exact absurd this (by simp)

theorem killGraph_weak (m : Module) (i : Inst) (g : AliasMap)
    (hw : m.kind i ≠ InstKind.store ∨
      ∀ a v, m.extractAliasToken i = [a, v] → (AliasGraph.getPointee g a).card ≠ 1) :
    killGraph m i g = g := by
  rcases hw with hs | hw
  · exact killGraph_not_store m i g hs
  · unfold killGraph
    split
    · split
      · rename_i a0 v hL
        rw [dif_neg (hw a0 v hL)]
      · rfl
    · rfl

theorem out_eq_beforeAssign (m : Module) (s s1 : State) (i : Inst)
    (h : runAnalysis m s i = some s1) :
    lookup s1.AliasOut i = outBeforeAssign m s i ∪ assignEdges m i (tokensAfterGep m i) := by
  unfold outBeforeAssign
  cases hac : analyzableCall m i with
  | false =>
    rw [(runAnalysis_local_spec m s s1 i hac h).2.2.2 i, if_pos rfl]
    simp [localOut]
  | true =>
    have hk : m.kind i ≠ InstKind.gep := by
      rw [((analyzableCall_iff m i).mp hac).1]; decide
    rw [(runAnalysis_call_spec m s s1 i hac h).2.2.2 i, if_pos rfl]
    simp [tokensAfterGep, hk]

/-! ## The claims -/

/-- Claim C2 at its failing input: on `mCall`, whose callee `{0: ret 10}` comes before the
caller, `runOnWorkList` empties the worklist within five iterations, and running
`runAnalysis` once more on the callee's instruction `0` changes `AliasOut[0]` from
`{(11, 10, 1, 1)}` to `{(30, 31, 1, 1)}`: the call wrote the callee's graphs after the
callee's instruction had run, and did not push it. -/
theorem C2_not_fixpoint :
    ∃ s, runOnWorkList mCall 5 (init mCall) = Run.finished s ∧
      lookup s.AliasOut 0 = {Edge.mk 11 10 1 1} ∧
      ∃ s1, runAnalysis mCall s 0 = some s1 ∧
        lookup s1.AliasOut 0 = {Edge.mk 30 31 1 1} ∧
        lookup s1.AliasOut 0 ≠ lookup s.AliasOut 0 :=
  ⟨_, rfl, by decide, _, rfl, by decide, by decide⟩

/-- Claim C3 (copy semantics).  An instruction that is neither a store, a GEP nor a call,
whose extraction yields exactly the tokens `a, b` with `b` not heap-classified and
statement type `(1, 1)`: `runAnalysis` returns, `AliasIn[I]` is the merge of the previous
`AliasIn[I]` with the predecessor list, and `AliasOut[I]` is that merged graph plus
exactly the edge `(a, b, 1, 1)`. -/
theorem C3_copy (m : Module) (s : State) (i : Inst) (a b : Token)
    (hs : m.kind i ≠ InstKind.store) (hg : m.kind i ≠ InstKind.gep)
    (hc : m.kind i ≠ InstKind.call)
    (ht : m.extractAliasToken i = [a, b]) (hm : m.isMem b = false)
    (hty : m.extractStatementType i = (1, 1)) :
    ∃ s1, runAnalysis m s i = some s1 ∧
      lookup s1.AliasIn i = AliasGraph.merge (lookup s.AliasIn i) (Predecessors m s i) ∧
      lookup s1.AliasOut i = Insert.insert (Edge.mk a b 1 1) (lookup s1.AliasIn i) := by
  refine ⟨_, runAnalysis_plain m s i hs hg hc, ?_, ?_⟩
  · simp [assignStep, ht, seedStep, lookup_assign_same]
  · simp [assignStep, ht, hm, hty, seedStep, lookup_assign_same, AliasGraph.insert]

/-- Claim C3 at the copy `1 = 2` of `mCopy`, run in the empty state. -/
theorem C3_copy_witness :
    ∃ s1, runAnalysis mCopy emptyState 0 = some s1 ∧
      lookup s1.AliasIn 0
        = AliasGraph.merge (lookup emptyState.AliasIn 0) (Predecessors mCopy emptyState 0) ∧
      lookup s1.AliasOut 0 = Insert.insert (Edge.mk 1 2 1 1) (lookup s1.AliasIn 0) :=
  C3_copy mCopy emptyState 0 1 2 (by decide) (by decide) (by decide) rfl rfl rfl

/-- Claim C4 (strong kill).  A store whose extraction yields the tokens `a, v` and for
which `getPointee(a)` in the merged `AliasIn[I]` is the singleton `{X}`: `runAnalysis`
returns; the only edge of `AliasOut[I]` with left token `X` can be the edge that the
generic assignment of `I` inserts, and every edge of the merged `AliasIn[I]` whose left
token is not `X` is in `AliasOut[I]`. -/
theorem C4_kill (m : Module) (s : State) (i : Inst) (a v X : Token)
    (hs : m.kind i = InstKind.store)
    (ht : m.extractAliasToken i = [a, v])
    (hp : AliasGraph.getPointee (AliasGraph.merge (lookup s.AliasIn i) (Predecessors m s i)) a
            = {X}) :
    ∃ s1, runAnalysis m s i = some s1 ∧
      lookup s1.AliasIn i = AliasGraph.merge (lookup s.AliasIn i) (Predecessors m s i) ∧
      (∀ e ∈ lookup s1.AliasOut i, e.left = X →
        e = Edge.mk a v (m.extractStatementType i).1
              (if m.isMem v then 0 else (m.extractStatementType i).2)) ∧
      (∀ e ∈ lookup s1.AliasIn i, e.left ≠ X → e ∈ lookup s1.AliasOut i) := by
  refine ⟨_, runAnalysis_store m s i hs, ?_, ?_, ?_⟩
  · simp [assignStep, ht, killStep, hs, seedStep, lookup_assign_same, hp]
  · intro e he hX
    simp [assignStep, ht, killStep, hs, seedStep, lookup_assign_same, hp,
      AliasGraph.mem_insert, AliasGraph.mem_erase] at he
    rcases he with he | he
    · exact he
    · exact absurd hX he.2
  · intro e he hX
    simp [assignStep, ht, killStep, hs, seedStep, lookup_assign_same, hp] at he
    simp [assignStep, ht, killStep, hs, seedStep, lookup_assign_same, hp,
      AliasGraph.mem_insert, AliasGraph.mem_erase]
    exact Or.inr ⟨he, hX⟩

/-- Claim C4 at the store of `mStore` in `sStore`, where token `1` points to `3` only. -/
theorem C4_kill_witness :
    ∃ s1, runAnalysis mStore sStore 0 = some s1 ∧
      lookup s1.AliasIn 0
        = AliasGraph.merge (lookup sStore.AliasIn 0) (Predecessors mStore sStore 0) ∧
      (∀ e ∈ lookup s1.AliasOut 0, e.left = 3 →
        e = Edge.mk 1 2 (mStore.extractStatementType 0).1
              (if mStore.isMem 2 then 0 else (mStore.extractStatementType 0).2)) ∧
      (∀ e ∈ lookup s1.AliasIn 0, e.left ≠ 3 → e ∈ lookup s1.AliasOut 0) :=
  C4_kill mStore sStore 0 1 2 3 rfl rfl (by decide)

/-- Claim C5 (field sensitivity).  A GEP whose extraction yields the tokens `dst, base`:
`runAnalysis` returns and `AliasOut[I]` is the merged `AliasIn[I]` united with the edges
`(dst, setIndex(P, I), 1, 0)` for the pointees `P` of `base` in `AliasIn[I]`; each such
edge is present, every edge gained is one of them, and no copy edge is inserted. -/
theorem C5_field (m : Module) (s : State) (i : Inst) (dst base : Token)
    (hg : m.kind i = InstKind.gep) (ht : m.extractAliasToken i = [dst, base]) :
    ∃ s1, runAnalysis m s i = some s1 ∧
      lookup s1.AliasIn i = AliasGraph.merge (lookup s.AliasIn i) (Predecessors m s i) ∧
      lookup s1.AliasOut i
        = lookup s1.AliasIn i ∪
            (AliasGraph.getPointee (lookup s1.AliasIn i) base).image
              (fun P => Edge.mk dst (m.setIndex P i) 1 0) ∧
      (∀ P ∈ AliasGraph.getPointee (lookup s1.AliasIn i) base,
        Edge.mk dst (m.setIndex P i) 1 0 ∈ lookup s1.AliasOut i) ∧
      (∀ e ∈ lookup s1.AliasOut i, e ∉ lookup s1.AliasIn i →
        ∃ P ∈ AliasGraph.getPointee (lookup s1.AliasIn i) base,
          e = Edge.mk dst (m.setIndex P i) 1 0) := by
  refine ⟨_, runAnalysis_gep m s i dst base [] hg ht, ?_, ?_, ?_, ?_⟩
  · simp [seedStep, lookup_assign_same]
  · simp [seedStep, lookup_assign_same]
  · intro P hP
    simp only [seedStep, lookup_assign_same] at hP ⊢
    exact Finset.mem_union_right _ (Finset.mem_image_of_mem _ hP)
  · intro e he hne
    simp only [seedStep, lookup_assign_same] at he hne ⊢
    rcases Finset.mem_union.mp he with h | h
    · exact absurd h hne
    · obtain ⟨P, hP, rfl⟩ := Finset.mem_image.mp h
      exact ⟨P, hP, rfl⟩

/-- Claim C5 at the GEP of `mGep` in `sGep`, where `base = 2` points to `3` and `4`. -/
theorem C5_field_witness :
    ∃ s1, runAnalysis mGep sGep 0 = some s1 ∧
      lookup s1.AliasIn 0 = AliasGraph.merge (lookup sGep.AliasIn 0) (Predecessors mGep sGep 0) ∧
      lookup s1.AliasOut 0
        = lookup s1.AliasIn 0 ∪
            (AliasGraph.getPointee (lookup s1.AliasIn 0) 2).image
              (fun P => Edge.mk 1 (mGep.setIndex P 0) 1 0) ∧
      (∀ P ∈ AliasGraph.getPointee (lookup s1.AliasIn 0) 2,
        Edge.mk 1 (mGep.setIndex P 0) 1 0 ∈ lookup s1.AliasOut 0) ∧
      (∀ e ∈ lookup s1.AliasOut 0, e ∉ lookup s1.AliasIn 0 →
        ∃ P ∈ AliasGraph.getPointee (lookup s1.AliasIn 0) 2,
          e = Edge.mk 1 (mGep.setIndex P 0) 1 0) :=
  C5_field mGep sGep 0 1 2 rfl rfl

/-- Claim C6 (argument passing).  After `runAnalysis` of a direct call `I` to an analyzable
callee, the `AliasIn` graph of the callee's first instruction contains every edge of
`AliasIn[I]`, contains `(formal_k, actual_k, 1, 1)` for every actual argument `k`, and
still contains every edge it held before. -/
theorem C6_argument_passing (m : Module) (s s1 : State) (i : Inst)
    (hk : m.kind i = InstKind.call) (hd : m.isIndirectCall i = false)
    (hskip : m.SkipFunction (m.getCalledFunction i) = false)
    (h : runAnalysis m s i = some s1) :
    lookup s1.AliasIn i ⊆ lookup s1.AliasIn (calleeEntry m i) ∧
    (∀ (k : Nat) (actual : Value), (m.callArgs i)[k]? = some actual →
      ∃ formal, (m.funcArgs (m.getCalledFunction i))[k]? = some formal ∧
        Edge.mk (m.getAliasToken formal) (m.getAliasToken actual) 1 1
          ∈ lookup s1.AliasIn (calleeEntry m i)) ∧
    lookup s.AliasIn (calleeEntry m i) ⊆ lookup s1.AliasIn (calleeEntry m i) := by
  have hac := (analyzableCall_iff m i).mpr ⟨hk, hd, hskip⟩
  obtain ⟨-, -, ⟨entryIn, hb, hin⟩, -⟩ := runAnalysis_call_spec m s s1 i hac h
  obtain ⟨hsub, hall, -⟩ := bindArgs_spec m _ _ _ _ _ hb
  have he : lookup s1.AliasIn (calleeEntry m i) = entryIn := by rw [hin]; simp
  refine ⟨?_, ?_, ?_⟩
  · rw [hin i, he]
    by_cases hie : i = calleeEntry m i
    · rw [if_pos hie]
    · simp only [hie, if_false, if_true]
      exact Finset.subset_union_right.trans hsub
  · intro k actual hk
    obtain ⟨formal, hf, hmem⟩ := hall k actual hk
    exact ⟨formal, by simpa using hf, by rw [he]; exact hmem⟩
  · rw [he]
    refine Finset.Subset.trans ?_ hsub
    by_cases hie : calleeEntry m i = i
    · simp only [hie, if_true, Finset.union_self, mergedIn]
      intro e he
      exact (AliasGraph.mem_merge _ _ _).mpr (Or.inl he)
    · simp only [hie, if_false]
      exact Finset.subset_union_left

/-- Claim C6 at the call of `mCall` in `sCall`. -/
theorem C6_argument_passing_witness :
    lookup ((runAnalysis mCall sCall 1).getD sCall).AliasIn 1
      ⊆ lookup ((runAnalysis mCall sCall 1).getD sCall).AliasIn (calleeEntry mCall 1) ∧
    (∀ (k : Nat) (actual : Value), (mCall.callArgs 1)[k]? = some actual →
      ∃ formal, (mCall.funcArgs (mCall.getCalledFunction 1))[k]? = some formal ∧
        Edge.mk (mCall.getAliasToken formal) (mCall.getAliasToken actual) 1 1
          ∈ lookup ((runAnalysis mCall sCall 1).getD sCall).AliasIn (calleeEntry mCall 1)) ∧
    lookup sCall.AliasIn (calleeEntry mCall 1)
      ⊆ lookup ((runAnalysis mCall sCall 1).getD sCall).AliasIn (calleeEntry mCall 1) :=
  C6_argument_passing mCall sCall _ 1 rfl rfl rfl rfl

/-- Claim C7 (global leakage).  After `runAnalysis` of a direct call `I` to an analyzable
callee whose last instruction is not the call itself (a block ends in a terminator),
`AliasOut[I]` contains `(L, R, 1, 1)` for every edge from `L` to `R` of the `AliasOut`
graph of the callee's last instruction with `L` not scoped to the callee; and every
edge of `AliasOut[I]` is an edge of the merged `AliasIn[I]`, the edge of the generic
assignment, or such a leaked edge, whose left token is not scoped to the callee. -/
theorem C7_global_leakage (m : Module) (s s1 : State) (i : Inst)
    (hk : m.kind i = InstKind.call) (hd : m.isIndirectCall i = false)
    (hskip : m.SkipFunction (m.getCalledFunction i) = false)
    (hexit : calleeExit m i ≠ i)
    (h : runAnalysis m s i = some s1) :
    (∀ e ∈ lookup s1.AliasOut (calleeExit m i),
      m.sameFunc e.left (m.getCalledFunction i) = false →
        Edge.mk e.left e.right 1 1 ∈ lookup s1.AliasOut i) ∧
    (∀ e ∈ lookup s1.AliasOut i,
      e ∈ mergedIn m s i ∨ e ∈ assignEdges m i (m.extractAliasToken i) ∨
      ∃ P ∈ lookup s1.AliasOut (calleeExit m i),
        m.sameFunc P.left (m.getCalledFunction i) = false ∧ e = Edge.mk P.left P.right 1 1) := by
  have hac := (analyzableCall_iff m i).mpr ⟨hk, hd, hskip⟩
  obtain ⟨-, -, -, hout⟩ := runAnalysis_call_spec m s s1 i hac h
  have hne : i ≠ calleeExit m i := fun h => hexit h.symm
  have hE : lookup s1.AliasOut (calleeExit m i)
      = lookup s.AliasOut (calleeExit m i) ∪ returnEdges m i (m.extractAliasToken i) := by
    rw [hout]; simp [hexit]
  have hI : lookup s1.AliasOut i
      = mergedIn m s i ∪ leakedEdges m (m.getCalledFunction i) (lookup s1.AliasOut (calleeExit m i))
        ∪ assignEdges m i (m.extractAliasToken i) := by
    rw [hE, hout]; simp [hexit, hne]
  refine ⟨?_, ?_⟩
  · intro e he hs
    rw [hI]
    refine Finset.mem_union_left _ (Finset.mem_union_right _ ?_)
    exact (mem_leakedEdges _ _ _ _).mpr ⟨e, he, hs, rfl⟩
  · intro e he
    rw [hI] at he
    rcases Finset.mem_union.mp he with h1 | h1
    · rcases Finset.mem_union.mp h1 with h2 | h2
      · exact Or.inl h2
      · exact Or.inr (Or.inr ((mem_leakedEdges _ _ _ _).mp h2))
    · exact Or.inr (Or.inl h1)

/-- Claim C7 at the call of `mCall` in `sCall`: the fact on the global token `50` leaks,
the fact on the callee's local token `10` does not. -/
theorem C7_global_leakage_witness :
    (∀ e ∈ lookup ((runAnalysis mCall sCall 1).getD sCall).AliasOut (calleeExit mCall 1),
      mCall.sameFunc e.left (mCall.getCalledFunction 1) = false →
        Edge.mk e.left e.right 1 1 ∈ lookup ((runAnalysis mCall sCall 1).getD sCall).AliasOut 1) ∧
    (∀ e ∈ lookup ((runAnalysis mCall sCall 1).getD sCall).AliasOut 1,
      e ∈ mergedIn mCall sCall 1 ∨ e ∈ assignEdges mCall 1 (mCall.extractAliasToken 1) ∨
      ∃ P ∈ lookup ((runAnalysis mCall sCall 1).getD sCall).AliasOut (calleeExit mCall 1),
        mCall.sameFunc P.left (mCall.getCalledFunction 1) = false ∧
          e = Edge.mk P.left P.right 1 1) :=
  C7_global_leakage mCall sCall _ 1 rfl rfl rfl (by decide) rfl


/-- Claim C8 (monotonicity).  For an instruction that is not a store and two states with
the same `AliasOut` map such that the merged `AliasIn[I]` of the second contains that of
the first: when `runAnalysis` returns in the first state it returns in the second, and
the `AliasOut[I]` of the second contains the `AliasOut[I]` of the first. -/
theorem C8_monotone (m : Module) (s t s1 : State) (i : Inst)
    (hs : m.kind i ≠ InstKind.store)
    (hO : s.AliasOut = t.AliasOut)
    (hsub : mergedIn m s i ⊆ mergedIn m t i)
    (h : runAnalysis m s i = some s1) :
    ∃ t1, runAnalysis m t i = some t1 ∧ lookup s1.AliasOut i ⊆ lookup t1.AliasOut i := by
  obtain ⟨t1, ht⟩ := (runAnalysis_isSome m t i).mpr ((runAnalysis_isSome m s i).mp ⟨s1, h⟩)
  refine ⟨t1, ht, ?_⟩
  cases hac : analyzableCall m i with
  | false =>
    rw [(runAnalysis_local_spec m s s1 i hac h).2.2.2 i,
      (runAnalysis_local_spec m t t1 i hac ht).2.2.2 i]
    simp only [if_true, localOut, killGraph_not_store m i _ hs]
    exact Finset.union_subset_union (Finset.union_subset_union hsub (gepEdges_mono m i hsub))
      (Finset.Subset.refl _)
  | true =>
    rw [(runAnalysis_call_spec m s s1 i hac h).2.2.2 i,
      (runAnalysis_call_spec m t t1 i hac ht).2.2.2 i]
    simp only [if_true, hO]
    refine Finset.union_subset_union (Finset.union_subset_union ?_ (leakedEdges_mono m _ ?_))
      (Finset.Subset.refl _)
    · split
      · exact Finset.union_subset_union hsub (Finset.Subset.refl _)
      · exact hsub
    · split
      · exact Finset.union_subset_union hsub (Finset.Subset.refl _)
      · exact Finset.Subset.refl _

/-- Claim C8 at the GEP of `mGep`, from `sGep` to the larger `tGep`. -/
theorem C8_monotone_witness :
    ∃ t1, runAnalysis mGep tGep 0 = some t1 ∧
      lookup ((runAnalysis mGep sGep 0).getD sGep).AliasOut 0 ⊆ lookup t1.AliasOut 0 :=
  C8_monotone mGep sGep tGep ((runAnalysis mGep sGep 0).getD sGep) 0 (by decide) (by rfl)
    (by decide) (by rfl)

/-- Claim C9 fails as stated: for the global of `mGlobal`, initialised with the global
variable `1`, `handleGlobalVar` inserts `(20, 22, 2, 1)` and does not insert
`(20, 22, 1, 0)`. -/
theorem C9_counterexample :
    (0 : Value) ∈ mGlobal.globals ∧ mGlobal.extractAliasTokenGlobal 0 = [20, 21] ∧
    mGlobal.globalInit 0 = some 1 ∧
    Edge.mk 20 (mGlobal.getAliasToken 1) 1 0 ∉ handleGlobalVar mGlobal ∅ ∧
    handleGlobalVar mGlobal ∅ = {Edge.mk 20 21 1 1, Edge.mk 20 22 2 1} := by
  decide

/-- Claim C9 as amended (global seeding).  For a global `G` whose extraction yields the
tokens `a0, a1` with statement type `(l, r)`, `handleGlobalVar` inserts `(a0, a1, l, r)`,
and when the initializer of `G` is a global variable `H` it also inserts
`(a0, token(H), 2, 1)`; every edge of the result is an edge of the initial graph or one
of these edges of a global yielding two tokens. -/
theorem C9_global_seeding (m : Module) (g0 : AliasMap) (G : Value) (a0 a1 : Token)
    (hG : G ∈ m.globals) (ht : m.extractAliasTokenGlobal G = [a0, a1]) :
    Edge.mk a0 a1 (m.extractStatementTypeGlobal G).1 (m.extractStatementTypeGlobal G).2
      ∈ handleGlobalVar m g0 ∧
    (∀ H, m.globalInit G = some H →
      Edge.mk a0 (m.getAliasToken H) 2 1 ∈ handleGlobalVar m g0) ∧
    (∀ e ∈ handleGlobalVar m g0, e ∈ g0 ∨
      ∃ G1 ∈ m.globals, ∃ b0 b1, m.extractAliasTokenGlobal G1 = [b0, b1] ∧
        (e = Edge.mk b0 b1 (m.extractStatementTypeGlobal G1).1
              (m.extractStatementTypeGlobal G1).2 ∨
          ∃ H, m.globalInit G1 = some H ∧ e = Edge.mk b0 (m.getAliasToken H) 2 1)) := by
  unfold handleGlobalVar
  refine ⟨?_, ?_, ?_⟩
  · exact (handleGlobalVar_mem m _ g0 _).mpr (Or.inr ⟨G, hG, a0, a1, ht, Or.inl rfl⟩)
  · intro H hH
    exact (handleGlobalVar_mem m _ g0 _).mpr (Or.inr ⟨G, hG, a0, a1, ht, Or.inr ⟨H, hH, rfl⟩⟩)
  · intro e he
    exact (handleGlobalVar_mem m _ g0 e).mp he

/-- Claim C9 as amended at the global of `mGlobal`. -/
theorem C9_global_seeding_witness :
    Edge.mk 20 21 (mGlobal.extractStatementTypeGlobal 0).1 (mGlobal.extractStatementTypeGlobal 0).2
      ∈ handleGlobalVar mGlobal ∅ ∧
    (∀ H, mGlobal.globalInit 0 = some H →
      Edge.mk 20 (mGlobal.getAliasToken H) 2 1 ∈ handleGlobalVar mGlobal ∅) ∧
    (∀ e ∈ handleGlobalVar mGlobal ∅, e ∈ (∅ : AliasMap) ∨
      ∃ G1 ∈ mGlobal.globals, ∃ b0 b1, mGlobal.extractAliasTokenGlobal G1 = [b0, b1] ∧
        (e = Edge.mk b0 b1 (mGlobal.extractStatementTypeGlobal G1).1
              (mGlobal.extractStatementTypeGlobal G1).2 ∨
          ∃ H, mGlobal.globalInit G1 = some H ∧ e = Edge.mk b0 (mGlobal.getAliasToken H) 2 1)) :=
  C9_global_seeding mGlobal ∅ 0 20 21 (by decide) rfl

/-- Claim C10 at its failing input: instruction `1` of `mSeed` starts the second block of
its function, it is not the function's first instruction, its previous `AliasIn` and
the `AliasOut` of its predecessor are empty, and `runAnalysis` still merges the global
graph and the argument graph into `AliasIn[1]`. -/
theorem C10_seed_at_block_start :
    mSeed.bbFront (mSeed.funcFront (mSeed.bbParent (mSeed.getParent 1))) ≠ 1 ∧
    mSeed.bbFront (mSeed.getParent 1) = 1 ∧
    lookup (init mSeed).AliasIn 1 = ∅ ∧
    (∀ p ∈ mSeed.GetPred 1, lookup (init mSeed).AliasOut p = ∅) ∧
    ∃ s1, runAnalysis mSeed (init mSeed) 1 = some s1 ∧
      lookup s1.AliasIn 1
        = {Edge.mk 20 21 1 1, Edge.mk 20 22 2 1, Edge.mk 30 31 1 0} :=
  ⟨by decide, by decide, by decide, by decide, _, rfl, by decide⟩

/-- Claim C11 at its failing inputs: `runAnalysis` reads out of range, in every state,
on the call of `mVarArg`, which passes two actual arguments to a callee with one formal
(`Func.getArg(1)`), on the GEP of `mShortGep`, whose extraction yields one token
(`Aliases[1]`), and on the call of `mNoResult`, which yields no token while the callee
returns one (`Aliases[0]`). -/
theorem C11_reads_out_of_range :
    (mVarArg.kind 1 = InstKind.call ∧ analyzableCall mVarArg 1 = true ∧
      (mVarArg.callArgs 1).length = 2 ∧
      (mVarArg.funcArgs (mVarArg.getCalledFunction 1)).length = 1 ∧
      ∀ s, runAnalysis mVarArg s 1 = none) ∧
    (mShortGep.kind 0 = InstKind.gep ∧ (mShortGep.extractAliasToken 0).length = 1 ∧
      ∀ s, runAnalysis mShortGep s 0 = none) ∧
    (mNoResult.kind 1 = InstKind.call ∧ analyzableCall mNoResult 1 = true ∧
      (mNoResult.extractAliasToken 1).length = 0 ∧
      ∀ s, runAnalysis mNoResult s 1 = none) :=
  ⟨⟨by decide, by decide, by decide, by decide,
      fun s => runAnalysis_none mVarArg s 1 (by decide)⟩,
    ⟨by decide, by decide, fun s => runAnalysis_none mShortGep s 0 (by decide)⟩,
    ⟨by decide, by decide, by decide, fun s => runAnalysis_none mNoResult s 1 (by decide)⟩⟩

/-- Claim C12 (skipped calls).  For a call instruction that is an indirect call or a
direct call to a function that `SkipFunction` skips, `runAnalysis` returns, no entry of
the `AliasIn` and `AliasOut` maps other than those of `I` is created or changed,
`AliasIn[I]` is the merged graph, and `AliasOut[I]` is the merged `AliasIn[I]` plus
exactly the edge of the generic assignment when the call yields two tokens `lhs, rhs`
(with the right level `0` for a heap-classified `rhs`), and the merged `AliasIn[I]`
itself otherwise. -/
theorem C12_skipped_call (m : Module) (s : State) (i : Inst)
    (hk : m.kind i = InstKind.call)
    (hskip : m.isIndirectCall i = true ∨ m.SkipFunction (m.getCalledFunction i) = true) :
    ∃ s1, runAnalysis m s i = some s1 ∧
      (∀ j, j ≠ i → s1.AliasIn j = s.AliasIn j ∧ s1.AliasOut j = s.AliasOut j) ∧
      lookup s1.AliasIn i = mergedIn m s i ∧
      (∀ lhs rhs, m.extractAliasToken i = [lhs, rhs] →
        lookup s1.AliasOut i
          = Insert.insert
              (Edge.mk lhs rhs (m.extractStatementType i).1
                (if m.isMem rhs then 0 else (m.extractStatementType i).2))
              (lookup s1.AliasIn i)) ∧
      ((m.extractAliasToken i).length ≠ 2 → lookup s1.AliasOut i = lookup s1.AliasIn i) := by
  have hna : analyzableCall m i = false := by
    cases hac : analyzableCall m i with
    | false => rfl
    | true =>
      obtain ⟨-, h2, h3⟩ := (analyzableCall_iff m i).mp hac
      rcases hskip with h | h
      · rw [h2] at h; exact absurd h (by simp)
      · rw [h3] at h; exact absurd h (by simp)
  have hngep : m.kind i ≠ InstKind.gep := by rw [hk]; decide
  have hnstore : m.kind i ≠ InstKind.store := by rw [hk]; decide
  have hrange : readsInRange m i = true := by
    simp [readsInRange, hngep, hna]
  obtain ⟨s1, h⟩ := (runAnalysis_isSome m s i).mpr hrange
  obtain ⟨-, -, hin, hout⟩ := runAnalysis_local_spec m s s1 i hna h
  have hO : lookup s1.AliasOut i = mergedIn m s i ∪ assignEdges m i (m.extractAliasToken i) := by
    rw [hout i, if_pos rfl]
    simp [localOut, killGraph_not_store m i _ hnstore, gepEdges, tokensAfterGep, hngep]
  have hI : lookup s1.AliasIn i = mergedIn m s i := by rw [hin i, if_pos rfl]
  refine ⟨s1, h, fun j hj => runAnalysis_local_agree m s s1 i j hna hj h, hI, ?_, ?_⟩
  · intro lhs rhs ht
    rw [hO, hI, ht]
    ext e
    simp [assignEdges, or_comm]
  · intro hlen
    rw [hO, hI]
    have : assignEdges m i (m.extractAliasToken i) = ∅ := by
      unfold assignEdges
      split
      · rename_i a0 a1 hL
        rw [hL] at hlen
        exact absurd rfl hlen
      · rfl
    rw [this, Finset.union_empty]

/-- Claim C12 at the skipped library call of `mSkipped`, run in the empty state. -/
theorem C12_skipped_call_witness :
    ∃ s1, runAnalysis mSkipped emptyState 0 = some s1 ∧
      (∀ j, j ≠ 0 → s1.AliasIn j = emptyState.AliasIn j ∧
        s1.AliasOut j = emptyState.AliasOut j) ∧
      lookup s1.AliasIn 0 = mergedIn mSkipped emptyState 0 ∧
      (∀ lhs rhs, mSkipped.extractAliasToken 0 = [lhs, rhs] →
        lookup s1.AliasOut 0
          = Insert.insert
              (Edge.mk lhs rhs (mSkipped.extractStatementType 0).1
                (if mSkipped.isMem rhs then 0 else (mSkipped.extractStatementType 0).2))
              (lookup s1.AliasIn 0)) ∧
      ((mSkipped.extractAliasToken 0).length ≠ 2 →
        lookup s1.AliasOut 0 = lookup s1.AliasIn 0) :=
  C12_skipped_call mSkipped emptyState 0 rfl (Or.inr rfl)

/-- Claim C13 fails as stated: running `runAnalysis` on the call `1` of `mCall` in `sCall`
changes the `AliasOut` graph of instruction `0`, the callee's return, which gains the
return-value binding `(11, 10, 1, 1)`. -/
theorem C13_counterexample :
    (0 : Inst) ≠ 1 ∧
    ∃ s1, runAnalysis mCall sCall 1 = some s1 ∧
      lookup sCall.AliasOut 0 = {Edge.mk 50 10 1 0, Edge.mk 10 40 1 1} ∧
      lookup s1.AliasOut 0 = {Edge.mk 50 10 1 0, Edge.mk 10 40 1 1, Edge.mk 11 10 1 1} ∧
      lookup s1.AliasOut 0 ≠ lookup sCall.AliasOut 0 :=
  ⟨by decide, _, rfl, by decide, by decide, by decide⟩

/-- Claim C13 as amended (frame of OUT).  `runAnalysis(I)` leaves `AliasOut[J]` unchanged
for every `J ≠ I`, except that when `I` is a direct call to an analyzable function and
`J` is the callee's last instruction, `AliasOut[J]` gains the edges of the return-value
binding: nothing, or the one edge `(Aliases[0], CallAliases[0], 1, 1)`. -/
theorem C13_out_frame (m : Module) (s s1 : State) (i j : Inst) (hj : j ≠ i)
    (h : runAnalysis m s i = some s1) :
    lookup s1.AliasOut j
      = if analyzableCall m i = true ∧ j = calleeExit m i then
          lookup s.AliasOut j ∪ returnEdges m i (m.extractAliasToken i)
        else lookup s.AliasOut j := by
  cases hac : analyzableCall m i with
  | false =>
    rw [(runAnalysis_local_spec m s s1 i hac h).2.2.2 j, if_neg hj]
    simp
  | true =>
    rw [(runAnalysis_call_spec m s s1 i hac h).2.2.2 j, if_neg hj]
    simp

/-- Claim C13 as amended at the call of `mCall` in `sCall` and the callee's return `0`. -/
theorem C13_out_frame_witness :
    lookup ((runAnalysis mCall sCall 1).getD sCall).AliasOut 0
      = if analyzableCall mCall 1 = true ∧ 0 = calleeExit mCall 1 then
          lookup sCall.AliasOut 0 ∪ returnEdges mCall 1 (mCall.extractAliasToken 1)
        else lookup sCall.AliasOut 0 :=
  C13_out_frame mCall sCall _ 1 0 (by decide) rfl

/-- Claim C15 fails as stated: the call `1` of `mVoidCall` yields no token, and
`runAnalysis` on it in `sCall` adds the leaked edge `(50, 10, 1, 1)` to `AliasOut[1]`,
which then differs from `AliasIn[1]`, and writes the caller's facts and the argument
binding `(30, 31, 1, 1)` into the `AliasIn` graph of the callee's instruction `0`. -/
theorem C15_counterexample :
    mVoidCall.extractAliasToken 1 = [] ∧
    ∃ s1, runAnalysis mVoidCall sCall 1 = some s1 ∧
      lookup s1.AliasIn 1 = {Edge.mk 31 40 1 0} ∧
      lookup s1.AliasOut 1 = {Edge.mk 31 40 1 0, Edge.mk 50 10 1 1} ∧
      lookup sCall.AliasIn 0 = ∅ ∧
      lookup s1.AliasIn 0 = {Edge.mk 31 40 1 0, Edge.mk 30 31 1 1} :=
  ⟨rfl, _, rfl, by decide, by decide, by decide, by decide⟩

/-- Claim C15 as amended (zero-token instructions).  For an instruction that is not a
GEP and not a direct call to an analyzable function, whose extraction yields no token,
`runAnalysis` returns, `AliasOut[I]` is the merged `AliasIn[I]`, and no entry of the
`AliasIn` and `AliasOut` maps of another instruction is created or changed. -/
theorem C15_zero_tokens (m : Module) (s : State) (i : Inst)
    (hg : m.kind i ≠ InstKind.gep) (hna : analyzableCall m i = false)
    (ht : m.extractAliasToken i = []) :
    ∃ s1, runAnalysis m s i = some s1 ∧
      lookup s1.AliasIn i = mergedIn m s i ∧
      lookup s1.AliasOut i = lookup s1.AliasIn i ∧
      (∀ j, j ≠ i → s1.AliasIn j = s.AliasIn j ∧ s1.AliasOut j = s.AliasOut j) := by
  have hrange : readsInRange m i = true := by simp [readsInRange, hg, hna]
  obtain ⟨s1, h⟩ := (runAnalysis_isSome m s i).mpr hrange
  obtain ⟨-, -, hin, hout⟩ := runAnalysis_local_spec m s s1 i hna h
  have hI : lookup s1.AliasIn i = mergedIn m s i := by rw [hin i, if_pos rfl]
  refine ⟨s1, h, hI, ?_, fun j hj => runAnalysis_local_agree m s s1 i j hna hj h⟩
  rw [hout i, if_pos rfl, hI]
  simp [localOut, killGraph, gepEdges, tokensAfterGep, hg, assignEdges, ht]

/-- Claim C15 as amended at the return `2` of `mVoidCall`, which yields no token. -/
theorem C15_zero_tokens_witness :
    ∃ s1, runAnalysis mVoidCall sCall 2 = some s1 ∧
      lookup s1.AliasIn 2 = mergedIn mVoidCall sCall 2 ∧
      lookup s1.AliasOut 2 = lookup s1.AliasIn 2 ∧
      (∀ j, j ≠ 2 → s1.AliasIn j = sCall.AliasIn j ∧ s1.AliasOut j = sCall.AliasOut j) :=
  C15_zero_tokens mVoidCall sCall 2 (by decide) (by decide) rfl

/-- Claim C16 fails as stated: instruction `0` of `mSelf` is a call, not a store, and it
is the first instruction of the function it calls; after `runAnalysis` on it the
argument binding `(30, 31, 1, 1)` is an edge of `AliasIn[0]` and not of `AliasOut[0]`. -/
theorem C16_counterexample :
    mSelf.kind 0 ≠ InstKind.store ∧ analyzableCall mSelf 0 = true ∧
    calleeEntry mSelf 0 = 0 ∧
    ∃ s1, runAnalysis mSelf emptyState 0 = some s1 ∧
      Edge.mk 30 31 1 1 ∈ lookup s1.AliasIn 0 ∧
      Edge.mk 30 31 1 1 ∉ lookup s1.AliasOut 0 :=
  ⟨by decide, by decide, by decide, _, rfl, by decide, by decide⟩

/-- Claim C16 as amended (weak update keeps old facts).  For an instruction that is not a
store, or is a store whose left token does not have exactly one pointee in the merged
`AliasIn[I]`, every edge of the merged `AliasIn[I]` (the graph that `AliasOut[I]` is
initialised with) is an edge of `AliasOut[I]` after `runAnalysis`; and unless `I` is a
direct call to an analyzable function whose first instruction is `I` itself, that merged
graph is `AliasIn[I]` after the run, so every edge of `AliasIn[I]` is one of `AliasOut[I]`. -/
theorem C16_weak_update (m : Module) (s s1 : State) (i : Inst)
    (hw : m.kind i ≠ InstKind.store ∨
      ∀ a v, m.extractAliasToken i = [a, v] →
        (AliasGraph.getPointee (mergedIn m s i) a).card ≠ 1)
    (h : runAnalysis m s i = some s1) :
    mergedIn m s i ⊆ lookup s1.AliasOut i ∧
    ((analyzableCall m i = false ∨ calleeEntry m i ≠ i) →
      lookup s1.AliasIn i ⊆ lookup s1.AliasOut i) := by
  have hsub : mergedIn m s i ⊆ lookup s1.AliasOut i := by
    cases hac : analyzableCall m i with
    | false =>
      rw [(runAnalysis_local_spec m s s1 i hac h).2.2.2 i, if_pos rfl]
      unfold localOut
      rw [killGraph_weak m i _ hw]
      exact Finset.subset_union_left.trans Finset.subset_union_left
    | true =>
      rw [(runAnalysis_call_spec m s s1 i hac h).2.2.2 i, if_pos rfl]
      refine Finset.Subset.trans ?_ (Finset.subset_union_left.trans Finset.subset_union_left)
      split
      · exact Finset.subset_union_left
      · exact Finset.Subset.refl _
  refine ⟨hsub, fun hne => ?_⟩
  have hI : lookup s1.AliasIn i = mergedIn m s i := by
    cases hac : analyzableCall m i with
    | false => rw [(runAnalysis_local_spec m s s1 i hac h).2.2.1 i, if_pos rfl]
    | true =>
      have hie : i ≠ calleeEntry m i := by
        rcases hne with h1 | h1
        · rw [hac] at h1; exact absurd h1 (by simp)
        · exact fun h2 => h1 h2.symm
      obtain ⟨-, -, ⟨entryIn, -, hin⟩, -⟩ := runAnalysis_call_spec m s s1 i hac h
      rw [hin i, if_neg hie, if_pos rfl]
  rw [hI]
  exact hsub

/-- Claim C16 as amended at the call of `mCall` in `sCall`. -/
theorem C16_weak_update_witness :
    mergedIn mCall sCall 1 ⊆ lookup ((runAnalysis mCall sCall 1).getD sCall).AliasOut 1 ∧
    ((analyzableCall mCall 1 = false ∨ calleeEntry mCall 1 ≠ 1) →
      lookup ((runAnalysis mCall sCall 1).getD sCall).AliasIn 1
        ⊆ lookup ((runAnalysis mCall sCall 1).getD sCall).AliasOut 1) :=
  C16_weak_update mCall sCall _ 1 (Or.inl (by decide)) rfl

/-- Claim C17 (frame of IN).  `runAnalysis(I)` removes no edge from any `AliasIn` graph,
and it changes `AliasIn[J]` for `J ≠ I` only when `I` is a direct call to an analyzable
function and `J` is the first instruction of that function. -/
theorem C17_in_frame (m : Module) (s s1 : State) (i : Inst)
    (h : runAnalysis m s i = some s1) :
    (∀ j, lookup s.AliasIn j ⊆ lookup s1.AliasIn j) ∧
    (∀ j, j ≠ i → lookup s1.AliasIn j ≠ lookup s.AliasIn j →
      m.kind i = InstKind.call ∧ m.isIndirectCall i = false ∧
        m.SkipFunction (m.getCalledFunction i) = false ∧ j = calleeEntry m i) := by
  cases hac : analyzableCall m i with
  | false =>
    obtain ⟨-, -, hin, -⟩ := runAnalysis_local_spec m s s1 i hac h
    refine ⟨fun j => ?_, fun j hj hne => ?_⟩
    · rw [hin j]
      split
      · rename_i hji; rw [hji]; exact subset_mergedIn m s i
      · exact Finset.Subset.refl _
    · rw [hin j, if_neg hj] at hne
      exact absurd rfl hne
  | true =>
    obtain ⟨-, -, ⟨entryIn, hb, hin⟩, -⟩ := runAnalysis_call_spec m s s1 i hac h
    have hsubE := (bindArgs_spec m _ _ _ _ _ hb).1
    obtain ⟨h1, h2, h3⟩ := (analyzableCall_iff m i).mp hac
    refine ⟨fun j => ?_, fun j hj hne => ?_⟩
    · rw [hin j]
      split
      · rename_i hje
        refine Finset.Subset.trans ?_ hsubE
        rw [hje]
        by_cases hie : calleeEntry m i = i
        · rw [if_pos hie, hie]
          exact (subset_mergedIn m s i).trans Finset.subset_union_left
        · rw [if_neg hie]
          exact Finset.subset_union_left
      · split
        · rename_i hji; rw [hji]; exact subset_mergedIn m s i
        · exact Finset.Subset.refl _
    · refine ⟨h1, h2, h3, ?_⟩
      by_contra hje
      rw [hin j, if_neg hje, if_neg hj] at hne
      exact absurd rfl hne

/-- Claim C17 at the call of `mCall` in `sCall`. -/
theorem C17_in_frame_witness :
    (∀ j, lookup sCall.AliasIn j ⊆ lookup ((runAnalysis mCall sCall 1).getD sCall).AliasIn j) ∧
    (∀ j, j ≠ 1 →
      lookup ((runAnalysis mCall sCall 1).getD sCall).AliasIn j ≠ lookup sCall.AliasIn j →
      mCall.kind 1 = InstKind.call ∧ mCall.isIndirectCall 1 = false ∧
        mCall.SkipFunction (mCall.getCalledFunction 1) = false ∧ j = calleeEntry mCall 1) :=
  C17_in_frame mCall sCall _ 1 rfl

/-- Claim C18 (heap right-hand sides).  An instruction that reaches the generic assignment
with the two tokens `lhs, rhs`, so one that is not a GEP, with statement type `(l, r)`:
after `runAnalysis`, `AliasOut[I]` is the graph it held when the assignment was reached
plus exactly one edge, `(lhs, rhs, l, 0)` when `rhs` is heap-classified and
`(lhs, rhs, l, r)` otherwise; an edge that the assignment adds has the left level `l` and
the right level `0` for a heap-classified `rhs`, `r` otherwise. -/
theorem C18_heap_rhs (m : Module) (s s1 : State) (i : Inst) (lhs rhs : Token)
    (hg : m.kind i ≠ InstKind.gep) (ht : m.extractAliasToken i = [lhs, rhs])
    (h : runAnalysis m s i = some s1) :
    lookup s1.AliasOut i
      = Insert.insert
          (Edge.mk lhs rhs (m.extractStatementType i).1
            (if m.isMem rhs then 0 else (m.extractStatementType i).2))
          (outBeforeAssign m s i) ∧
    (m.isMem rhs = true →
      Edge.mk lhs rhs (m.extractStatementType i).1 0 ∈ lookup s1.AliasOut i) ∧
    (m.isMem rhs = false →
      Edge.mk lhs rhs (m.extractStatementType i).1 (m.extractStatementType i).2
        ∈ lookup s1.AliasOut i) ∧
    (∀ e ∈ lookup s1.AliasOut i, e ∉ outBeforeAssign m s i →
      e.left = lhs ∧ e.right = rhs ∧ e.lhsLevel = (m.extractStatementType i).1 ∧
        e.rhsLevel = if m.isMem rhs then 0 else (m.extractStatementType i).2) := by
  have hO : lookup s1.AliasOut i
      = Insert.insert
          (Edge.mk lhs rhs (m.extractStatementType i).1
            (if m.isMem rhs then 0 else (m.extractStatementType i).2))
          (outBeforeAssign m s i) := by
    rw [out_eq_beforeAssign m s s1 i h]
    have : tokensAfterGep m i = [lhs, rhs] := by simp [tokensAfterGep, hg, ht]
    rw [this]
    ext e
    simp [assignEdges, or_comm]
  refine ⟨hO, fun hm => ?_, fun hm => ?_, fun e he hne => ?_⟩
  · rw [hO]
    simp [hm]
  · rw [hO]
    simp [hm]
  · rw [hO] at he
    rcases Finset.mem_insert.mp he with h1 | h1
    · subst h1
      exact ⟨rfl, rfl, rfl, rfl⟩
    · exact absurd h1 hne

/-- Claim C18 at the allocation `1 = malloc` of `mHeap` in `sCopy`, with statement type
`(1, 1)` and the heap-classified right-hand token `2`: the one edge added is
`(1, 2, 1, 0)`, and `(1, 2, 1, 1)` is not in `AliasOut[0]`. -/
theorem C18_heap_rhs_witness :
    (lookup ((runAnalysis mHeap sCopy 0).getD sCopy).AliasOut 0
      = Insert.insert
          (Edge.mk 1 2 (mHeap.extractStatementType 0).1
            (if mHeap.isMem 2 then 0 else (mHeap.extractStatementType 0).2))
          (outBeforeAssign mHeap sCopy 0) ∧
    (mHeap.isMem 2 = true →
      Edge.mk 1 2 (mHeap.extractStatementType 0).1 0
        ∈ lookup ((runAnalysis mHeap sCopy 0).getD sCopy).AliasOut 0) ∧
    (mHeap.isMem 2 = false →
      Edge.mk 1 2 (mHeap.extractStatementType 0).1 (mHeap.extractStatementType 0).2
        ∈ lookup ((runAnalysis mHeap sCopy 0).getD sCopy).AliasOut 0) ∧
    (∀ e ∈ lookup ((runAnalysis mHeap sCopy 0).getD sCopy).AliasOut 0,
      e ∉ outBeforeAssign mHeap sCopy 0 →
      e.left = 1 ∧ e.right = 2 ∧ e.lhsLevel = (mHeap.extractStatementType 0).1 ∧
        e.rhsLevel = if mHeap.isMem 2 then 0 else (mHeap.extractStatementType 0).2)) ∧
    outBeforeAssign mHeap sCopy 0 = {Edge.mk 2 3 1 0} ∧
    lookup ((runAnalysis mHeap sCopy 0).getD sCopy).AliasOut 0
      = {Edge.mk 2 3 1 0, Edge.mk 1 2 1 0} :=
  ⟨C18_heap_rhs mHeap sCopy _ 0 1 2 (by decide) rfl rfl, by decide, by decide⟩

/-- Claim C19 (return value reaches the caller).  A direct call `I` to an analyzable
callee that does not diverge, whose first token `c` is not scoped to the callee, and
whose callee ends in a return yielding exactly the token `r`: after one `runAnalysis`,
`AliasOut[I]` contains `(c, r, 1, 1)`, which is also in the `AliasOut` graph of the
callee's last instruction. -/
theorem C19_return_value (m : Module) (s s1 : State) (i : Inst) (c r : Token)
    (rest : List Token)
    (hk : m.kind i = InstKind.call) (hd : m.isIndirectCall i = false)
    (hskip : m.SkipFunction (m.getCalledFunction i) = false)
    (hret : m.doesNotReturn i = false)
    (hc : m.extractAliasToken i = c :: rest)
    (hscope : m.sameFunc c (m.getCalledFunction i) = false)
    (hexit : m.kind (calleeExit m i) = InstKind.ret)
    (hr : m.extractAliasToken (calleeExit m i) = [r])
    (h : runAnalysis m s i = some s1) :
    Edge.mk c r 1 1 ∈ lookup s1.AliasOut i ∧
    Edge.mk c r 1 1 ∈ lookup s1.AliasOut (calleeExit m i) := by
  have hac := (analyzableCall_iff m i).mpr ⟨hk, hd, hskip⟩
  obtain ⟨-, -, -, hout⟩ := runAnalysis_call_spec m s s1 i hac h
  have hre : returnEdges m i (m.extractAliasToken i) = {Edge.mk c r 1 1} := by
    simp [returnEdges, hret, hexit, hr, hc]
  have hleak : Edge.mk c r 1 1 ∈ leakedEdges m (m.getCalledFunction i)
      ((if calleeExit m i = i then mergedIn m s i else lookup s.AliasOut (calleeExit m i))
        ∪ returnEdges m i (m.extractAliasToken i)) := by
    refine (mem_leakedEdges m _ _ _).mpr ⟨Edge.mk c r 1 1, ?_, hscope, rfl⟩
    rw [hre]
    exact Finset.mem_union_right _ (Finset.mem_singleton_self _)
  have hI : Edge.mk c r 1 1 ∈ lookup s1.AliasOut i := by
    rw [hout i, if_pos rfl]
    exact Finset.mem_union_left _ (Finset.mem_union_right _ hleak)
  refine ⟨hI, ?_⟩
  by_cases hie : calleeExit m i = i
  · rw [hie]; exact hI
  · rw [hout (calleeExit m i), if_neg hie, if_pos rfl, hre]
    exact Finset.mem_union_right _ (Finset.mem_singleton_self _)

/-- Claim C19 at the call of `mCall` in `sCall`: the result token `11` is bound to the
returned token `10`. -/
theorem C19_return_value_witness :
    Edge.mk 11 10 1 1 ∈ lookup ((runAnalysis mCall sCall 1).getD sCall).AliasOut 1 ∧
    Edge.mk 11 10 1 1
      ∈ lookup ((runAnalysis mCall sCall 1).getD sCall).AliasOut (calleeExit mCall 1) :=
  C19_return_value mCall sCall _ 1 11 10 [] rfl rfl rfl rfl rfl rfl rfl rfl rfl

end AliasAnalysis
